import Mathlib

/-!
Verification of the call-site resolution core of the `sorcery` library
(`sorcery/core.py`), as a shallow embedding.

The embedding covers:

* a fragment of the Python AST (`Expr`, `Kw`, `Stmt`) in which every
  `ast.Call` node carries a ghost label `cid` used only to state theorems
  (the label plays the role of object identity of the AST node; the matcher
  itself never inspects it);
* a CPython-style compiler (`compileExpr`, `compileStmt`, `compileBody`)
  producing a linear instruction stream.  Evaluation order follows CPython:
  for `f(a, k=v)` the function is loaded, then positional arguments, then
  keyword values, then one "perform call" instruction.  The distinctions
  between `CALL_FUNCTION`, `CALL_FUNCTION_KW` and `CALL_FUNCTION_EX` are
  collapsed into the single constructor `Instr.callFunc`, because
  `_call_instructions` only tests `opname.startswith(('CALL_FUNCTION',
  'CALL_METHOD'))`, which all of them satisfy;
* the sentinel-marker matching algorithm of `CallFinder.__init__`,
  `CallFinder.get_call_instruction_index`, `CallFinder.stmt_offset`,
  `_stmt_instructions`, `_call_instructions` and `tweak_list`;
* the assignment-target resolver `assigned_names` / `node_names` /
  `node_name`, and `statement_containing_node`;
* the `lru_cache` wrapper `file_info` around `FileInfo`.

Statements covered by the compiled fragment are expression statements and
assignments that sit directly in the body of the enclosing Module /
FunctionDef block (the block found by `get_containing_block`), each
occupying a single source line; `dis` instruction offsets are modelled as
two bytes per instruction, as in CPython 3.6+ wordcode.
-/

set_option maxHeartbeats 1000000

namespace Sorcery

/-- The sentinel constant from `core.py`:
`sentinel = 'io8urthglkjdghvljusketgIYRFYUVGHFRTBGVHKGF78678957647698'`. -/
def sentinel : String := "io8urthglkjdghvljusketgIYRFYUVGHFRTBGVHKGF78678957647698"

/-- The tuple `special_code_names = ('<listcomp>', '<dictcomp>', '<setcomp>', '<lambda>', '<genexpr>')`. -/
def specialCodeNames : List String :=
  ["<listcomp>", "<dictcomp>", "<setcomp>", "<lambda>", "<genexpr>"]

/-- A low-level bytecode instruction (one element of `dis.get_instructions(code)`).
`callFunc cid` is a "perform call" instruction (`CALL_FUNCTION*` / `CALL_METHOD`);
the ghost label `cid` records which source `ast.Call` node it performs and is
never inspected by the matcher. -/
inductive Instr where
  | loadName (s : String)
  | loadConstStr (v : String)
  | loadConstNum (n : Int)
  | loadConstNone
  | loadAttr (s : String)
  | binarySubscr
  | buildTuple (n : Nat)
  | buildList (n : Nat)
  | storeName (s : String)
  | storeAttr (s : String)
  | storeSubscr
  | unpackSequence (n : Nat)
  | dupTop
  | popTop
  | callFunc (cid : Nat)
  | returnValue
  deriving DecidableEq

/-- The `argval` attribute of a `dis.Instruction`, restricted to string values.
Non-string argvals (numbers, code objects, jump targets, tuples of keyword
names) can never compare equal to the string `sentinel`, so they are modelled
as `none`. -/
def Instr.argvalStr : Instr → Option String
  | .loadName s => some s
  | .loadConstStr v => some v
  | .loadAttr s => some s
  | .storeName s => some s
  | .storeAttr s => some s
  | _ => none

/-- Is this instruction a "perform call" instruction, i.e. does its opname
start with `CALL_FUNCTION` or `CALL_METHOD` (cf. `_call_instructions`). -/
def Instr.isCall : Instr → Bool
  | .callFunc _ => true
  | _ => false

mutual
/-- A fragment of the Python expression AST.  `call cid func args keywords`
is an `ast.Call`; `cid` is a ghost label standing for the object identity of
the node.  `subscript v i` is `ast.Subscript(value=v, slice=ast.Index(i))`
(3.6-era AST shape). -/
inductive Expr where
  | name (s : String)
  | numLit (n : Int)
  | strLit (v : String)
  | attributeE (value : Expr) (attr : String)
  | subscript (value : Expr) (index : Expr)
  | tupleE (elts : List Expr)
  | listE (elts : List Expr)
  | starred (value : Expr)
  | call (cid : Nat) (func : Expr) (args : List Expr) (keywords : List Kw)

/-- An `ast.keyword(arg=..., value=...)`; `arg = none` is a `**value` keyword. -/
inductive Kw where
  | mk (arg : Option String) (value : Expr)
end

/-- A statement of the covered fragment (an `ast.stmt` node), carrying its
`lineno`.  All nodes of a statement in the covered fragment start on the
statement's line. -/
inductive Stmt where
  | exprStmt (lineno : Nat) (value : Expr)
  | assign (lineno : Nat) (targets : List Expr) (value : Expr)

/-- The `lineno` attribute of a statement node. -/
def Stmt.lineno : Stmt → Nat
  | .exprStmt l _ => l
  | .assign l _ _ => l

mutual
/-- Compile an expression in load context, CPython evaluation order. -/
def compileExpr : Expr → List Instr
  | .name s => [.loadName s]
  | .numLit n => [.loadConstNum n]
  | .strLit v => [.loadConstStr v]
  | .attributeE v a => compileExpr v ++ [.loadAttr a]
  | .subscript v i => compileExpr v ++ compileExpr i ++ [.binarySubscr]
  | .tupleE es => compileExprList es ++ [.buildTuple es.length]
  | .listE es => compileExprList es ++ [.buildList es.length]
  | .starred v => compileExpr v
  | .call cid f args kws =>
      compileExpr f ++ compileExprList args ++ compileKwList kws ++ [.callFunc cid]

/-- Compile a list of expressions in order. -/
def compileExprList : List Expr → List Instr
  | [] => []
  | e :: es => compileExpr e ++ compileExprList es

/-- Compile the values of a keyword list in order.  (The tuple of keyword
names that `CALL_FUNCTION_KW` loads has a non-string argval and is omitted;
see `Instr.argvalStr`.) -/
def compileKwList : List Kw → List Instr
  | [] => []
  | .mk _ v :: ks => compileExpr v ++ compileKwList ks
end

mutual
/-- Compile an expression in store context (an assignment target). -/
def compileStore : Expr → List Instr
  | .name s => [.storeName s]
  | .attributeE v a => compileExpr v ++ [.storeAttr a]
  | .subscript v i => compileExpr v ++ compileExpr i ++ [.storeSubscr]
  | .tupleE es => .unpackSequence es.length :: compileStoreList es
  | .listE es => .unpackSequence es.length :: compileStoreList es
  | .starred v => compileStore v
  | .numLit _ => []
  | .strLit _ => []
  | .call _ _ _ _ => []

/-- Compile a list of store targets in order. -/
def compileStoreList : List Expr → List Instr
  | [] => []
  | e :: es => compileStore e ++ compileStoreList es
end

/-- Compile the target list of an `ast.Assign`: the value on the stack is
duplicated before every target except the last. -/
def compileTargets : List Expr → List Instr
  | [] => []
  | [t] => compileStore t
  | t :: ts => .dupTop :: (compileStore t ++ compileTargets ts)

/-- Compile one statement. -/
def compileStmt : Stmt → List Instr
  | .exprStmt _ v => compileExpr v ++ [.popTop]
  | .assign _ ts v => compileExpr v ++ compileTargets ts

/-- Compile a statement list (a body) in order. -/
def compileBody (body : List Stmt) : List Instr :=
  (body.map compileStmt).flatten

/-- The exceptions that the resolution path can raise:
`expectedOneObject` is the `ValueError` raised by `littleutils.only` when its
argument does not have exactly one element, `indexError` is an out-of-range
list index (`[0]` on an empty list, `list(stmts)[0]` on an empty set), and
`attributeError` is the `AttributeError` raised when `CallFinder(...).result`
is accessed but the candidate loop never set `self.result`. -/
inductive Err where
  | expectedOneObject
  | indexError
  | attributeError
  deriving DecidableEq

/-- Model of `littleutils.only`: the sole element of a one-element list, otherwise a
`ValueError`. -/
def only? {α : Type} : List α → Except Err α
  | [x] => .ok x
  | _ => .error .expectedOneObject

/-- The index of the first element satisfying `p`, if any. -/
def findFirstIdx {α : Type} (p : α → Bool) : List α → Option Nat
  | [] => none
  | a :: as => if p a then some 0 else (findFirstIdx p as).map (· + 1)

/-- The Python expression `[i for i, x in enumerate(l) if p x]`, starting the count at `n`. -/
def idxWhereFrom {α : Type} (p : α → Bool) (n : Nat) : List α → List Nat
  | [] => []
  | a :: as => if p a then n :: idxWhereFrom p (n + 1) as else idxWhereFrom p (n + 1) as

/-- The Python expression `[i for i, x in enumerate(l) if p x]`. -/
def idxWhere {α : Type} (p : α → Bool) (l : List α) : List Nat :=
  idxWhereFrom p 0 l

/-- A `dis.Instruction` together with its byte offset in its code unit. -/
structure OInstr where
  offset : Int
  instr : Instr
  deriving DecidableEq

/-- Pair each instruction with its byte offset, starting at offset `n`;
every instruction occupies two bytes (CPython 3.6+ wordcode). -/
def withOffsetsFrom (n : Int) : List Instr → List OInstr
  | [] => []
  | i :: is => ⟨n, i⟩ :: withOffsetsFrom (n + 2) is

/-- Pair each instruction of a code unit with its byte offset. -/
def withOffsets (l : List Instr) : List OInstr :=
  withOffsetsFrom 0 l

/-- The number of call instructions in a stream (the length of
`_call_instructions(instructions)`). -/
def countCalls (l : List Instr) : Nat :=
  (l.filter Instr.isCall).length

/-- The ghost labels of the call instructions of a stream, in order. -/
def callIdList : List Instr → List Nat
  | [] => []
  | .callFunc k :: is => k :: callIdList is
  | _ :: is => callIdList is

/-- No instruction of the stream has the sentinel string as argval. -/
def instrsClean (l : List Instr) : Bool :=
  l.all fun i => i.argvalStr != some sentinel

mutual
/-- The ghost labels of all `ast.Call` nodes of an expression whose call
instruction is emitted by `compileExpr`, in emission order. -/
def exprCallIds : Expr → List Nat
  | .name _ => []
  | .numLit _ => []
  | .strLit _ => []
  | .attributeE v _ => exprCallIds v
  | .subscript v i => exprCallIds v ++ exprCallIds i
  | .tupleE es => exprListCallIds es
  | .listE es => exprListCallIds es
  | .starred v => exprCallIds v
  | .call cid f args kws =>
      exprCallIds f ++ exprListCallIds args ++ kwListCallIds kws ++ [cid]

/-- Call labels of an expression list, in order. -/
def exprListCallIds : List Expr → List Nat
  | [] => []
  | e :: es => exprCallIds e ++ exprListCallIds es

/-- Call labels of a keyword list, in order. -/
def kwListCallIds : List Kw → List Nat
  | [] => []
  | .mk _ v :: ks => exprCallIds v ++ kwListCallIds ks
end

mutual
/-- Call labels emitted by `compileStore`, in order. -/
def storeCallIds : Expr → List Nat
  | .name _ => []
  | .numLit _ => []
  | .strLit _ => []
  | .attributeE v _ => exprCallIds v
  | .subscript v i => exprCallIds v ++ exprCallIds i
  | .tupleE es => storeListCallIds es
  | .listE es => storeListCallIds es
  | .starred v => storeCallIds v
  | .call _ _ _ _ => []

/-- Call labels of a store-target list, in order. -/
def storeListCallIds : List Expr → List Nat
  | [] => []
  | e :: es => storeCallIds e ++ storeListCallIds es
end

/-- Call labels emitted by compiling one statement, in order. -/
def stmtCallIds : Stmt → List Nat
  | .exprStmt _ v => exprCallIds v
  | .assign _ ts v => exprCallIds v ++ storeListCallIds ts

/-- Call labels emitted by compiling a body, in order. -/
def bodyCallIds (body : List Stmt) : List Nat :=
  (body.map stmtCallIds).flatten

mutual
/-- No string embedded in the expression (identifier, attribute name or
string literal) equals the sentinel constant: the improbability assumption
on genuine user data made by the marker technique. -/
def exprClean : Expr → Bool
  | .name s => s != sentinel
  | .numLit _ => true
  | .strLit v => v != sentinel
  | .attributeE v a => exprClean v && a != sentinel
  | .subscript v i => exprClean v && exprClean i
  | .tupleE es => exprListClean es
  | .listE es => exprListClean es
  | .starred v => exprClean v
  | .call _ f args kws => exprClean f && exprListClean args && kwListClean kws

/-- Sentinel-freedom for an expression list. -/
def exprListClean : List Expr → Bool
  | [] => true
  | e :: es => exprClean e && exprListClean es

/-- Sentinel-freedom for a keyword list. -/
def kwListClean : List Kw → Bool
  | [] => true
  | .mk _ v :: ks => exprClean v && kwListClean ks
end

/-- Sentinel-freedom for a statement. -/
def stmtClean : Stmt → Bool
  | .exprStmt _ v => exprClean v
  | .assign _ ts v => exprListClean ts && exprClean v

/-- Sentinel-freedom for a body. -/
def bodyClean : List Stmt → Bool
  | [] => true
  | s :: ss => stmtClean s && bodyClean ss

mutual
/-- Append the marker keyword `ast.keyword(arg=None, value=ast.Str(sentinel))`
to the keyword list of the call node labelled `k` (the mutation performed on
the AST inside the candidate loop of `CallFinder.__init__`; the label stands
for the identity of the mutated node). -/
def addSentinelE (k : Nat) : Expr → Expr
  | .name s => .name s
  | .numLit n => .numLit n
  | .strLit v => .strLit v
  | .attributeE v a => .attributeE (addSentinelE k v) a
  | .subscript v i => .subscript (addSentinelE k v) (addSentinelE k i)
  | .tupleE es => .tupleE (addSentinelL k es)
  | .listE es => .listE (addSentinelL k es)
  | .starred v => .starred (addSentinelE k v)
  | .call cid f args kws =>
      if cid = k then
        .call cid (addSentinelE k f) (addSentinelL k args)
          (addSentinelK k kws ++ [.mk none (.strLit sentinel)])
      else
        .call cid (addSentinelE k f) (addSentinelL k args) (addSentinelK k kws)

/-- Marker insertion mapped over an expression list. -/
def addSentinelL (k : Nat) : List Expr → List Expr
  | [] => []
  | e :: es => addSentinelE k e :: addSentinelL k es

/-- Marker insertion mapped over a keyword list. -/
def addSentinelK (k : Nat) : List Kw → List Kw
  | [] => []
  | .mk a v :: ks => .mk a (addSentinelE k v) :: addSentinelK k ks
end

/-- Marker insertion on a statement. -/
def addSentinelS (k : Nat) : Stmt → Stmt
  | .exprStmt l v => .exprStmt l (addSentinelE k v)
  | .assign l ts v => .assign l (addSentinelL k ts) (addSentinelE k v)

/-- An AST node as visited by `ast.walk` / `ast.iter_child_nodes`. -/
inductive TreeNode where
  | stmtN (s : Stmt)
  | exprN (e : Expr)
  | kwN (k : Kw)

/-- Model of `ast.iter_child_nodes`, in AST field order (`Assign`: targets then value;
`Call`: func, args, keywords). -/
def children : TreeNode → List TreeNode
  | .stmtN (.exprStmt _ v) => [.exprN v]
  | .stmtN (.assign _ ts v) => ts.map .exprN ++ [.exprN v]
  | .exprN (.name _) => []
  | .exprN (.numLit _) => []
  | .exprN (.strLit _) => []
  | .exprN (.attributeE v _) => [.exprN v]
  | .exprN (.subscript v i) => [.exprN v, .exprN i]
  | .exprN (.tupleE es) => es.map .exprN
  | .exprN (.listE es) => es.map .exprN
  | .exprN (.starred v) => [.exprN v]
  | .exprN (.call _ f args kws) => .exprN f :: (args.map .exprN ++ kws.map .kwN)
  | .kwN (.mk _ v) => [.exprN v]

mutual
/-- A positive size measure on expressions, bounding the node count. -/
def sizeE : Expr → Nat
  | .name _ => 1
  | .numLit _ => 1
  | .strLit _ => 1
  | .attributeE v _ => 1 + sizeE v
  | .subscript v i => 1 + sizeE v + sizeE i
  | .tupleE es => 1 + sizeL es
  | .listE es => 1 + sizeL es
  | .starred v => 1 + sizeE v
  | .call _ f args kws => 1 + sizeE f + sizeL args + sizeK kws

/-- Size of an expression list. -/
def sizeL : List Expr → Nat
  | [] => 0
  | e :: es => sizeE e + sizeL es

/-- Size of a keyword list. -/
def sizeK : List Kw → Nat
  | [] => 0
  | .mk _ v :: ks => 1 + sizeE v + sizeK ks
end

/-- Size of a statement. -/
def sizeS : Stmt → Nat
  | .exprStmt _ v => 1 + sizeE v
  | .assign _ ts v => 1 + sizeL ts + sizeE v

/-- Size of a tree node. -/
def sizeN : TreeNode → Nat
  | .stmtN s => sizeS s
  | .exprN e => sizeE e
  | .kwN (.mk _ v) => 1 + sizeE v

/-- Total size of a worklist. -/
def sumN : List TreeNode → Nat
  | [] => 0
  | n :: ns => sizeN n + sumN ns

/-- The queue-based breadth-first traversal of `ast.walk`, with explicit
fuel; `sumN q` units of fuel always suffice (`walk` below). -/
def walkFuel : Nat → List TreeNode → List TreeNode
  | 0, _ => []
  | _ + 1, [] => []
  | fuel + 1, n :: rest => n :: walkFuel fuel (rest ++ children n)

/-- Model of `ast.walk(root)` for a forest of roots: breadth-first, left to right. -/
def walk (roots : List TreeNode) : List TreeNode :=
  walkFuel (sumN roots) roots

/-- Extract the call expression from a walked node, if it is an `ast.Call`. -/
def asCall : TreeNode → Option Expr
  | .exprN (.call cid f args kws) => some (.call cid f args kws)
  | _ => none

/-- The candidate list of `CallFinder.__init__`:
`[node for stmt in stmts for node in ast.walk(stmt) if isinstance(node, ast.Call)]`. -/
def walkCalls (stmts : List Stmt) : List Expr :=
  (stmts.map fun s => (walk [.stmtN s]).filterMap asCall).flatten

/-- An execution frame: `f_code.co_name`, `f_lineno` and `f_lasti`. -/
structure Fr where
  codeName : String
  lineno : Nat
  lasti : Int

/-- The instruction stream of the sandbox module of `make_sandbox_module`
after extraction: the statements are wrapped in a synthetic zero-argument
`FunctionDef` named `<function>`, compiled, and the function's code object
extracted (`_stmt_instructions(..., matching_code=...)` with a non-special
frame, for which `find_code` returns the wrapper code unchanged).  A CPython
function body compiles to its statements followed by `LOAD_CONST None;
RETURN_VALUE`. -/
def sandboxInstructions (stmts : List Stmt) : List Instr :=
  compileBody stmts ++ [.loadConstNone, .returnValue]

/-- The instruction stream of the enclosing block: for a Module it is the
module code itself (`extract=False`); for a FunctionDef the code object of
the only code constant of `ast.Module(body=[parent_block])`.  Both compile
the block's body followed by the `LOAD_CONST None; RETURN_VALUE` epilogue. -/
def blockInstructions (body : List Stmt) : List Instr :=
  compileBody body ++ [.loadConstNone, .returnValue]

/-- The marker statement of `CallFinder.stmt_offset`:
`ast.Expr(value=ast.List(elts=[ast.Str(sentinel)], ctx=ast.Load()))`. -/
def markerStmt : Stmt :=
  .exprStmt 0 (.listE [.strLit sentinel])

/-- Model of `CallFinder.stmt_offset`: replace the first statement of the queried
line inside the enclosing body with the marker statement, compile the
enclosing block, and return the byte offset of the unique instruction whose
argval is the sentinel.  `body.findIdx` models `body.index(stmts[0])`:
Python list equality on AST nodes is object identity, and `stmts[0]` is the
first statement of `body` whose `lineno` is the queried line.  The
`tweak_list(body)` context manager restores `body` afterwards; the model
builds the tweaked body functionally, leaving `body` untouched. -/
def stmtOffset (body : List Stmt) (line : Nat) : Except Err Int :=
  let i := body.findIdx fun s => s.lineno == line
  let tweaked := body.set i markerStmt
  let instrs := withOffsets (blockInstructions tweaked)
  match only? (instrs.filter fun oi => oi.instr.argvalStr == some sentinel) with
  | .ok oi => .ok oi.offset
  | .error e => .error e

/-- Lines 120-122 of `core.py`: `frame_offset_relative_to_stmt = frame.f_lasti`,
reduced by `stmt_offset()` unless the frame's code object is one of the
special anonymous blocks (`special_code_names`). -/
def frameOffsetRelativeToStmt (body : List Stmt) (fr : Fr) : Except Err Int :=
  if specialCodeNames.contains fr.codeName then .ok fr.lasti
  else
    match stmtOffset body fr.lineno with
    | .ok off => .ok (fr.lasti - off)
    | .error e => .error e

/-- Model of `CallFinder.get_call_instruction_index`: the index, among the call
instructions of the compiled sandbox, of the instruction at the adjusted
frame offset (`only` fails unless exactly one call instruction sits at that
offset). -/
def getCallInstructionIndex (body stmts : List Stmt) (fr : Fr) : Except Err Nat :=
  match frameOffsetRelativeToStmt body fr with
  | .error e => .error e
  | .ok rel =>
      only? (idxWhere (fun oi => oi.offset == rel)
        ((withOffsets (sandboxInstructions stmts)).filter fun oi => oi.instr.isCall))

/-- The `tweak_list` context manager: copy the list, run the body on the
mutated state, and restore the copy in a `finally` clause, so the final
state is the original whatever the body did. -/
def tweakRun {α β : Type} (st : α) (modify : α → α) (act : α → β) : β × α :=
  (act (modify st), st)

/-- The mutation of one candidate trial: append the marker keyword to the
candidate call node (identified by its ghost label) wherever it sits in the
enclosing body. -/
def tweakAdd (c : Expr) (body : List Stmt) : List Stmt :=
  match c with
  | .call cid _ _ _ => body.map (addSentinelS cid)
  | _ => body

/-- The computation inside one candidate trial, on the tweaked statement
group: find the indices of instructions loading the sentinel
(`indices`); if there are none, signal `continue` (`none`); otherwise take
the only one (`arg_index`), find the first call instruction at or after it
(`_call_instructions(instructions[arg_index:])[0]`, an `IndexError` if there
is none), and return its index among the call instructions of the modified
unit (`only(i for i, instruction in enumerate(call_instructions) if
instruction is new_instruction)`: distinct positions hold distinct
`dis.Instruction` objects, so the identity test picks the position found,
whose index among calls is the number of call instructions before it). -/
def trialStep (tweaked : List Stmt) : Except Err (Option Nat) :=
  let instrs := sandboxInstructions tweaked
  match idxWhere (fun i => i.argvalStr == some sentinel) instrs with
  | [] => .ok none
  | [ai] =>
      match findFirstIdx Instr.isCall (instrs.drop ai) with
      | none => .error .indexError
      | some j => .ok (some (countCalls (instrs.take (ai + j))))
  | _ => .error .expectedOneObject

/-- The candidate loop of `CallFinder.__init__`: for each candidate call, in
`walkCalls` order, run one sentinel trial under `tweak_list` (restoring the
body), and stop at the first candidate whose recompiled call-instruction
index equals the target index.  The statement group compiled by the sandbox
is read back from the (tweaked) body state, as `self.sandbox_module` holds
references to the statements being mutated. -/
def findLoop (line : Nat) (target : Nat) :
    List Expr → List Stmt → Except Err (Option Expr) × List Stmt
  | [], body => (.ok none, body)
  | c :: rest, body =>
      let pr := tweakRun body (tweakAdd c)
        (fun b => trialStep (b.filter fun s => s.lineno == line))
      match pr.1 with
      | .error e => (.error e, pr.2)
      | .ok none => findLoop line target rest pr.2
      | .ok (some idx) =>
          if idx = target then (.ok (some c), pr.2)
          else findLoop line target rest pr.2

/-- Model of `FileInfo._call_at` composed with `CallFinder`: select the statements of
the queried line (`nodes_by_line` entries mapped through
`statement_containing_node` and sorted by `body.index`, which for the
covered fragment is the sublist of `body` at that line), compute the target
call-instruction index, and run the candidate loop; accessing `.result`
raises `AttributeError` when the loop never set it.  Returns the result
together with the final state of the enclosing body. -/
def callAt (body : List Stmt) (fr : Fr) : Except Err Expr × List Stmt :=
  let stmts := body.filter fun s => s.lineno == fr.lineno
  if stmts.isEmpty then (.error .indexError, body)
  else
    match getCallInstructionIndex body stmts fr with
    | .error e => (.error e, body)
    | .ok target =>
        match findLoop fr.lineno target (walkCalls stmts) body with
        | (.ok none, b) => (.error .attributeError, b)
        | (.ok (some c), b) => (.ok c, b)
        | (.error e, b) => (.error e, b)

/-- The exceptions of the assignment-target resolver:
`noAssignmentFound` is `TypeError('No assignment found')`,
`cannotExtractName` is `TypeError('Cannot extract name from %s')`, and
`expectedOne` is the `ValueError` raised by `only(node.targets)` on a
chained assignment (`len(targets) != 1`). -/
inductive NErr where
  | noAssignmentFound
  | cannotExtractName
  | expectedOne
  deriving DecidableEq

/-- Model of `node_name`: the name of a variable, the name of an attribute, or the
contents of a string literal subscript key (`ast.Index` wrapping `ast.Str`
in the 3.6-era AST); anything else raises. -/
def node_name : Expr → Except NErr String
  | .name s => .ok s
  | .attributeE _ a => .ok a
  | .subscript _ (.strLit s) => .ok s
  | _ => .error .cannotExtractName

/-- Model of `tuple(node_name(x) for x in elts)`: left to right, the first failing
element raises. -/
def namesOfElts : List Expr → Except NErr (List String)
  | [] => .ok []
  | e :: es =>
      match node_name e with
      | .error er => .error er
      | .ok s =>
          match namesOfElts es with
          | .error er => .error er
          | .ok ss => .ok (s :: ss)

/-- Model of `node_names`: one name per element for a tuple or list literal target,
otherwise the single name of the node. -/
def node_names (node : Expr) : Except NErr (List String) :=
  match node with
  | .tupleE es => namesOfElts es
  | .listE es => namesOfElts es
  | e =>
      match node_name e with
      | .ok s => .ok [s]
      | .error er => .error er

/-- An ancestor in the parent chain walked by `assigned_names`: an
`ast.Assign` (with its target list), an `ast.For`, an `ast.comprehension`
clause, or any other kind of node. -/
inductive ANode where
  | assignN (targets : List Expr)
  | forN (target : Expr)
  | comprehensionN (target : Expr)
  | otherN

/-- Model of `assigned_names`: walk the chain of parents (nearest first, the
starting node itself excluded, since the loop moves to `node.parent` before
testing).  An `ast.Assign` contributes `only(node.targets)` (a `ValueError`
on chained assignments); an `ast.For` or comprehension clause contributes
its target only when `allow_loops` is set; other nodes are skipped.  A
candidate target's names are extracted by `node_names` (raising on
unsupported shapes) and accepted when more than one name is bound or
`allow_one` is set; otherwise the walk continues.  Exhausting the chain
raises `TypeError('No assignment found')`. -/
def assigned_names (allowOne allowLoops : Bool) :
    List ANode → Except NErr (List String × ANode)
  | [] => .error .noAssignmentFound
  | n :: rest =>
      let targetRes : Except NErr (Option Expr) :=
        match n with
        | .assignN ts =>
            match ts with
            | [t] => .ok (some t)
            | _ => .error .expectedOne
        | .forN t => .ok (if allowLoops then some t else none)
        | .comprehensionN t => .ok (if allowLoops then some t else none)
        | .otherN => .ok none
      match targetRes with
      | .error e => .error e
      | .ok none => assigned_names allowOne allowLoops rest
      | .ok (some t) =>
          match node_names t with
          | .error e => .error e
          | .ok names =>
              if 1 < names.length || allowOne then .ok (names, n)
              else assigned_names allowOne allowLoops rest

/-- Model of `statement_containing_node`: follow parent links (given as the chain of
ancestors, nearest first) until an `ast.stmt` is reached; a node that is
itself a statement is returned unchanged.  `none` models the
`AttributeError` of walking past the tree root. -/
def statement_containing_node : TreeNode → List TreeNode → Option Stmt
  | .stmtN s, _ => some s
  | _, [] => none
  | _, p :: ps => statement_containing_node p ps

/-- The `SourceFile` metadata built by `FileInfo.__init__`: the text read
from the path and the syntax tree parsed from it (the covered fragment of
the tree: the statement list of the module body). -/
structure FileInfoM where
  source : String
  tree : List Stmt

/-- The ambient environment: the contents of the filesystem
(`tokenize.open(path).read()`) and the parser (`ast.parse`). -/
structure Env where
  readFile : String → String
  parse : String → List Stmt

/-- Construct a `FileInfo` for a path: read the source and parse it. -/
def makeFileInfo (env : Env) (path : String) : FileInfoM :=
  { source := env.readFile path, tree := env.parse (env.readFile path) }

/-- The cache state of `file_info = lru_cache()(FileInfo)`, keyed by path.
(The default `maxsize=128` eviction never applies to consecutive calls for
one path, the situation the claims quantify over, so the model keeps every
entry.) -/
abbrev FICache : Type := List (String × FileInfoM)

/-- One call through the `file_info` cache: a hit returns the stored object
and does not run `FileInfo.__init__`; a miss runs it (reading and parsing
the file) and stores the result.  The boolean records whether
`FileInfo.__init__` ran, i.e. whether the file was read and parsed. -/
def fileInfoCall (env : Env) (cache : FICache) (path : String) :
    FileInfoM × FICache × Bool :=
  match List.find? (fun pr => pr.1 == path) cache with
  | some pr => (pr.2, cache, false)
  | none =>
      let fi := makeFileInfo env path
      (fi, cache ++ [(path, fi)], true)

/-- A full resolution request: index the file through the cache, then
resolve the execution position against the cached tree
(`FileInfo.for_frame(frame)._call_at(frame)`).  Returns the resolved call,
the new cache state, and whether the file was (re)read. -/
def resolveAt (env : Env) (cache : FICache) (path : String) (fr : Fr) :
    Except Err Expr × FICache × Bool :=
  let r := fileInfoCall env cache path
  ((callAt r.1.tree fr).1, r.2.1, r.2.2)

/-! Generic list lemmas used by the development. -/

theorem idxWhereFrom_append {α : Type} (p : α → Bool) (A B : List α) :
    ∀ n, idxWhereFrom p n (A ++ B) = idxWhereFrom p n A ++ idxWhereFrom p (n + A.length) B := by
  induction A with
  | nil => intro n; simp [idxWhereFrom]
  | cons a as ih =>
      intro n
      have h : n + (as.length + 1) = n + 1 + as.length := by omega
      simp only [List.cons_append, idxWhereFrom, List.append_eq, ih (n + 1),
        List.length_cons, h]
      by_cases hp : p a <;> simp [hp]

theorem idxWhereFrom_nil {α : Type} (p : α → Bool) (A : List α)
    (h : ∀ a ∈ A, p a = false) : ∀ n, idxWhereFrom p n A = [] := by
  induction A with
  | nil => intro n; simp [idxWhereFrom]
  | cons a as ih =>
      intro n
      have ha : p a = false := h a (List.mem_cons_self a as)
      simp only [idxWhereFrom, ha]
      exact ih (fun x hx => h x (List.mem_cons_of_mem a hx)) (n + 1)

theorem idxWhere_single {α : Type} (p : α → Bool) (A B : List α) (x : α)
    (hA : ∀ a ∈ A, p a = false) (hx : p x = true) (hB : ∀ b ∈ B, p b = false) :
    idxWhere p (A ++ x :: B) = [A.length] := by
  unfold idxWhere
  rw [idxWhereFrom_append]
  rw [idxWhereFrom_nil p A hA]
  simp only [idxWhereFrom, hx, List.nil_append, Nat.zero_add]
  rw [idxWhereFrom_nil p B hB]
  simp

theorem take_append_len {α : Type} (A : List α) :
    ∀ (B : List α) (n : Nat), (A ++ B).take (A.length + n) = A ++ B.take n := by
  induction A with
  | nil => intro B n; simp
  | cons a as ih =>
      intro B n
      simp only [List.cons_append, List.length_cons]
      have h : as.length + 1 + n = (as.length + n) + 1 := by omega
      rw [h, List.take_succ_cons, ih]

theorem drop_append_len {α : Type} (A : List α) :
    ∀ (B : List α), (A ++ B).drop A.length = B := by
  induction A with
  | nil => intro B; simp
  | cons a as ih => intro B; simpa using ih B

theorem findFirstIdx_cons_neg {α : Type} (p : α → Bool) (a : α) (as : List α)
    (h : p a = false) :
    findFirstIdx p (a :: as) = (findFirstIdx p as).map (· + 1) := by
  simp [findFirstIdx, h]

theorem findFirstIdx_cons_pos {α : Type} (p : α → Bool) (a : α) (as : List α)
    (h : p a = true) : findFirstIdx p (a :: as) = some 0 := by
  simp [findFirstIdx, h]

theorem filter_single {α : Type} (p : α → Bool) (A B : List α) (x : α)
    (hA : ∀ a ∈ A, p a = false) (hx : p x = true) (hB : ∀ b ∈ B, p b = false) :
    (A ++ x :: B).filter p = [x] := by
  rw [List.filter_append]
  have h1 : A.filter p = [] := List.filter_eq_nil.mpr (by intro a ha; simp [hA a ha])
  have h2 : B.filter p = [] := List.filter_eq_nil.mpr (by intro b hb; simp [hB b hb])
  simp [h1, h2, List.filter_cons, hx]

theorem findIdx_append_single {α : Type} (p : α → Bool) (A : List α) :
    ∀ (B : List α) (x : α), (∀ a ∈ A, p a = false) → p x = true →
    (A ++ x :: B).findIdx p = A.length := by
  induction A with
  | nil => intro B x _ hx; simp [List.findIdx_cons, hx]
  | cons a as ih =>
      intro B x hA hx
      have ha : p a = false := hA a (List.mem_cons_self a as)
      simp only [List.cons_append, List.findIdx_cons, ha, cond_false, List.length_cons]
      rw [ih B x (fun y hy => hA y (List.mem_cons_of_mem a hy)) hx]

theorem withOffsetsFrom_append (A B : List Instr) :
    ∀ n, withOffsetsFrom n (A ++ B) =
      withOffsetsFrom n A ++ withOffsetsFrom (n + 2 * A.length) B := by
  induction A with
  | nil => intro n; simp [withOffsetsFrom]
  | cons a as ih =>
      intro n
      have h : n + 2 + 2 * (as.length : Int) = n + 2 * ((as.length + 1 : Nat) : Int) := by
        push_cast
        ring
      simp only [List.cons_append, withOffsetsFrom, List.append_eq, ih (n + 2),
        List.length_cons, h]

theorem mem_withOffsetsFrom (l : List Instr) :
    ∀ (n : Int) (oi : OInstr), oi ∈ withOffsetsFrom n l →
      n ≤ oi.offset ∧ oi.offset < n + 2 * l.length ∧ oi.instr ∈ l := by
  induction l with
  | nil => intro n oi h; simp [withOffsetsFrom] at h
  | cons a as ih =>
      intro n oi h
      simp only [withOffsetsFrom, List.mem_cons] at h
      rcases h with h | h
      · subst h
        refine ⟨le_refl _, ?_, List.mem_cons_self a as⟩
        simp only [List.length_cons]
        push_cast
        omega
      · obtain ⟨h1, h2, h3⟩ := ih (n + 2) oi h
        refine ⟨by omega, ?_, List.mem_cons_of_mem a h3⟩
        simp only [List.length_cons]
        push_cast at h2 ⊢
        omega

theorem length_withOffsetsFrom (l : List Instr) :
    ∀ n, (withOffsetsFrom n l).length = l.length := by
  induction l with
  | nil => intro n; simp [withOffsetsFrom]
  | cons a as ih => intro n; simp [withOffsetsFrom, ih]

/-! Structure of the compiled streams: distribution over append, call
labels, and sentinel-freedom. -/

theorem compileExprList_append (A B : List Expr) :
    compileExprList (A ++ B) = compileExprList A ++ compileExprList B := by
  induction A with
  | nil => simp [compileExprList]
  | cons a as ih => simp [compileExprList, ih]

theorem compileKwList_append (A B : List Kw) :
    compileKwList (A ++ B) = compileKwList A ++ compileKwList B := by
  induction A with
  | nil => simp [compileKwList]
  | cons a as ih =>
      cases a with
      | mk arg v => simp [compileKwList, ih]

theorem callIdList_append (A B : List Instr) :
    callIdList (A ++ B) = callIdList A ++ callIdList B := by
  induction A with
  | nil => simp [callIdList]
  | cons a as ih => cases a <;> simp [callIdList, ih]

theorem countCalls_append (A B : List Instr) :
    countCalls (A ++ B) = countCalls A + countCalls B := by
  simp [countCalls, List.filter_append]

theorem countCalls_cons_call (k : Nat) (l : List Instr) :
    countCalls (Instr.callFunc k :: l) = countCalls l + 1 := by
  simp [countCalls, List.filter_cons, Instr.isCall]

theorem countCalls_cons_noncall (i : Instr) (l : List Instr)
    (h : i.isCall = false) : countCalls (i :: l) = countCalls l := by
  simp [countCalls, List.filter_cons, h]

theorem length_callIdList (l : List Instr) :
    (callIdList l).length = countCalls l := by
  induction l with
  | nil => simp [callIdList, countCalls]
  | cons a as ih =>
      cases a <;>
        simp [callIdList, ih, countCalls, List.filter_cons, Instr.isCall] <;>
        simp [countCalls] at ih <;> omega

theorem mem_callIdList_of_callFunc (l : List Instr) (k : Nat)
    (h : Instr.callFunc k ∈ l) : k ∈ callIdList l := by
  induction l with
  | nil => simp at h
  | cons a as ih =>
      rcases List.mem_cons.mp h with h1 | h1
      · subst h1; simp [callIdList]
      · cases a <;> simp [callIdList, ih h1]

mutual
theorem callIdList_compileExpr :
    ∀ e : Expr, callIdList (compileExpr e) = exprCallIds e
  | .name s => by simp [compileExpr, callIdList, exprCallIds]
  | .numLit n => by simp [compileExpr, callIdList, exprCallIds]
  | .strLit v => by simp [compileExpr, callIdList, exprCallIds]
  | .attributeE v a => by
      simp [compileExpr, exprCallIds, callIdList_append, callIdList,
        callIdList_compileExpr v]
  | .subscript v i => by
      simp [compileExpr, exprCallIds, callIdList_append, callIdList,
        callIdList_compileExpr v, callIdList_compileExpr i]
  | .tupleE es => by
      simp [compileExpr, exprCallIds, callIdList_append, callIdList,
        callIdList_compileExprList es]
  | .listE es => by
      simp [compileExpr, exprCallIds, callIdList_append, callIdList,
        callIdList_compileExprList es]
  | .starred v => by
      simp [compileExpr, exprCallIds, callIdList_compileExpr v]
  | .call cid f args kws => by
      simp [compileExpr, exprCallIds, callIdList_append, callIdList,
        callIdList_compileExpr f, callIdList_compileExprList args,
        callIdList_compileKwList kws]

theorem callIdList_compileExprList :
    ∀ es : List Expr, callIdList (compileExprList es) = exprListCallIds es
  | [] => by simp [compileExprList, callIdList, exprListCallIds]
  | e :: es => by
      simp [compileExprList, exprListCallIds, callIdList_append,
        callIdList_compileExpr e, callIdList_compileExprList es]

theorem callIdList_compileKwList :
    ∀ ks : List Kw, callIdList (compileKwList ks) = kwListCallIds ks
  | [] => by simp [compileKwList, callIdList, kwListCallIds]
  | .mk a v :: ks => by
      simp [compileKwList, kwListCallIds, callIdList_append,
        callIdList_compileExpr v, callIdList_compileKwList ks]
end

mutual
theorem callIdList_compileStore :
    ∀ e : Expr, callIdList (compileStore e) = storeCallIds e
  | .name s => by simp [compileStore, callIdList, storeCallIds]
  | .numLit n => by simp [compileStore, callIdList, storeCallIds]
  | .strLit v => by simp [compileStore, callIdList, storeCallIds]
  | .attributeE v a => by
      simp [compileStore, storeCallIds, callIdList_append, callIdList,
        callIdList_compileExpr v]
  | .subscript v i => by
      simp [compileStore, storeCallIds, callIdList_append, callIdList,
        callIdList_compileExpr v, callIdList_compileExpr i]
  | .tupleE es => by
      simp [compileStore, storeCallIds, callIdList,
        callIdList_compileStoreList es]
  | .listE es => by
      simp [compileStore, storeCallIds, callIdList,
        callIdList_compileStoreList es]
  | .starred v => by
      simp [compileStore, storeCallIds, callIdList_compileStore v]
  | .call cid f args kws => by
      simp [compileStore, storeCallIds, callIdList]

theorem callIdList_compileStoreList :
    ∀ es : List Expr, callIdList (compileStoreList es) = storeListCallIds es
  | [] => by simp [compileStoreList, callIdList, storeListCallIds]
  | e :: es => by
      simp [compileStoreList, storeListCallIds, callIdList_append,
        callIdList_compileStore e, callIdList_compileStoreList es]
end

theorem callIdList_compileTargets :
    ∀ ts : List Expr, callIdList (compileTargets ts) = storeListCallIds ts
  | [] => by simp [compileTargets, callIdList, storeListCallIds]
  | [t] => by
      simp [compileTargets, storeListCallIds, callIdList_compileStore t,
        callIdList_append, callIdList]
  | t :: t2 :: ts => by
      simp [compileTargets, storeListCallIds, callIdList, callIdList_append,
        callIdList_compileStore t, callIdList_compileTargets (t2 :: ts)]

theorem callIdList_compileStmt (s : Stmt) :
    callIdList (compileStmt s) = stmtCallIds s := by
  cases s with
  | exprStmt l v =>
      simp [compileStmt, stmtCallIds, callIdList_append, callIdList,
        callIdList_compileExpr v]
  | assign l ts v =>
      simp [compileStmt, stmtCallIds, callIdList_append,
        callIdList_compileExpr v, callIdList_compileTargets ts]

theorem callIdList_compileBody (body : List Stmt) :
    callIdList (compileBody body) = bodyCallIds body := by
  induction body with
  | nil => simp [compileBody, bodyCallIds, callIdList]
  | cons s ss ih =>
      simp only [compileBody, bodyCallIds, List.map_cons, List.flatten_cons,
        callIdList_append, callIdList_compileStmt s]
      simp [compileBody, bodyCallIds] at ih
      simp [ih]

theorem compileBody_append (A B : List Stmt) :
    compileBody (A ++ B) = compileBody A ++ compileBody B := by
  simp [compileBody]

theorem instrsClean_append (A B : List Instr) :
    instrsClean (A ++ B) = (instrsClean A && instrsClean B) := by
  simp [instrsClean]

theorem instrsClean_cons (i : Instr) (l : List Instr) :
    instrsClean (i :: l) = ((i.argvalStr != some sentinel) && instrsClean l) := by
  simp [instrsClean]

theorem instrsClean_nil : instrsClean [] = true := rfl

theorem nodup_parts {A B : List Nat} (h : (A ++ B).Nodup) :
    A.Nodup ∧ B.Nodup ∧ ∀ k, k ∈ A → k ∉ B := by
  rw [List.nodup_append] at h
  exact ⟨h.1, h.2.1, fun k hk hk2 => h.2.2 hk hk2⟩

mutual
theorem instrsClean_compileExpr :
    ∀ e : Expr, exprClean e = true → instrsClean (compileExpr e) = true
  | .name s => fun h => by
      simp [exprClean] at h
      simp [compileExpr, instrsClean_cons, instrsClean_nil, Instr.argvalStr, h]
  | .numLit n => fun _ => by
      simp [compileExpr, instrsClean_cons, instrsClean_nil, Instr.argvalStr]
  | .strLit v => fun h => by
      simp [exprClean] at h
      simp [compileExpr, instrsClean_cons, instrsClean_nil, Instr.argvalStr, h]
  | .attributeE v a => fun h => by
      simp [exprClean] at h
      simp [compileExpr, instrsClean_append, instrsClean_cons, instrsClean_nil,
        Instr.argvalStr, instrsClean_compileExpr v h.1, h.2]
  | .subscript v i => fun h => by
      simp [exprClean] at h
      simp [compileExpr, instrsClean_append, instrsClean_cons, instrsClean_nil,
        Instr.argvalStr, instrsClean_compileExpr v h.1, instrsClean_compileExpr i h.2]
  | .tupleE es => fun h => by
      simp [exprClean] at h
      simp [compileExpr, instrsClean_append, instrsClean_cons, instrsClean_nil,
        Instr.argvalStr, instrsClean_compileExprList es h]
  | .listE es => fun h => by
      simp [exprClean] at h
      simp [compileExpr, instrsClean_append, instrsClean_cons, instrsClean_nil,
        Instr.argvalStr, instrsClean_compileExprList es h]
  | .starred v => fun h => by
      simp [exprClean] at h
      simp [compileExpr, instrsClean_compileExpr v h]
  | .call cid f args kws => fun h => by
      simp [exprClean] at h
      simp [compileExpr, instrsClean_append, instrsClean_cons, instrsClean_nil,
        Instr.argvalStr, instrsClean_compileExpr f h.1.1,
        instrsClean_compileExprList args h.1.2, instrsClean_compileKwList kws h.2]

theorem instrsClean_compileExprList :
    ∀ es : List Expr, exprListClean es = true → instrsClean (compileExprList es) = true
  | [] => fun _ => by simp [compileExprList, instrsClean_nil]
  | e :: es => fun h => by
      simp [exprListClean] at h
      simp [compileExprList, instrsClean_append,
        instrsClean_compileExpr e h.1, instrsClean_compileExprList es h.2]

theorem instrsClean_compileKwList :
    ∀ ks : List Kw, kwListClean ks = true → instrsClean (compileKwList ks) = true
  | [] => fun _ => by simp [compileKwList, instrsClean_nil]
  | .mk a v :: ks => fun h => by
      simp [kwListClean] at h
      simp [compileKwList, instrsClean_append,
        instrsClean_compileExpr v h.1, instrsClean_compileKwList ks h.2]
end

mutual
theorem instrsClean_compileStore :
    ∀ e : Expr, exprClean e = true → instrsClean (compileStore e) = true
  | .name s => fun h => by
      simp [exprClean] at h
      simp [compileStore, instrsClean_cons, instrsClean_nil, Instr.argvalStr, h]
  | .numLit n => fun _ => by simp [compileStore, instrsClean_nil]
  | .strLit v => fun _ => by simp [compileStore, instrsClean_nil]
  | .attributeE v a => fun h => by
      simp [exprClean] at h
      simp [compileStore, instrsClean_append, instrsClean_cons, instrsClean_nil,
        Instr.argvalStr, instrsClean_compileExpr v h.1, h.2]
  | .subscript v i => fun h => by
      simp [exprClean] at h
      simp [compileStore, instrsClean_append, instrsClean_cons, instrsClean_nil,
        Instr.argvalStr, instrsClean_compileExpr v h.1, instrsClean_compileExpr i h.2]
  | .tupleE es => fun h => by
      simp [exprClean] at h
      simp [compileStore, instrsClean_cons, Instr.argvalStr,
        instrsClean_compileStoreList es h]
  | .listE es => fun h => by
      simp [exprClean] at h
      simp [compileStore, instrsClean_cons, Instr.argvalStr,
        instrsClean_compileStoreList es h]
  | .starred v => fun h => by
      simp [exprClean] at h
      simp [compileStore, instrsClean_compileStore v h]
  | .call cid f args kws => fun _ => by simp [compileStore, instrsClean_nil]

theorem instrsClean_compileStoreList :
    ∀ es : List Expr, exprListClean es = true → instrsClean (compileStoreList es) = true
  | [] => fun _ => by simp [compileStoreList, instrsClean_nil]
  | e :: es => fun h => by
      simp [exprListClean] at h
      simp [compileStoreList, instrsClean_append,
        instrsClean_compileStore e h.1, instrsClean_compileStoreList es h.2]
end

theorem instrsClean_compileTargets :
    ∀ ts : List Expr, exprListClean ts = true → instrsClean (compileTargets ts) = true
  | [] => fun _ => by simp [compileTargets, instrsClean_nil]
  | [t] => fun h => by
      simp [exprListClean] at h
      simp [compileTargets, instrsClean_compileStore t h]
  | t :: t2 :: ts => fun h => by
      simp [exprListClean] at h
      have h2 : exprListClean (t2 :: ts) = true := by
        simp [exprListClean, h.2.1, h.2.2]
      simp [compileTargets, instrsClean_cons, instrsClean_append, Instr.argvalStr,
        instrsClean_compileStore t h.1, instrsClean_compileTargets (t2 :: ts) h2]

theorem instrsClean_compileStmt (s : Stmt) (h : stmtClean s = true) :
    instrsClean (compileStmt s) = true := by
  cases s with
  | exprStmt l v =>
      simp [stmtClean] at h
      simp [compileStmt, instrsClean_append, instrsClean_cons, instrsClean_nil,
        Instr.argvalStr, instrsClean_compileExpr v h]
  | assign l ts v =>
      simp [stmtClean] at h
      simp [compileStmt, instrsClean_append,
        instrsClean_compileExpr v h.2, instrsClean_compileTargets ts h.1]

theorem instrsClean_compileBody (body : List Stmt) (h : bodyClean body = true) :
    instrsClean (compileBody body) = true := by
  induction body with
  | nil => simp [compileBody, instrsClean_nil]
  | cons s ss ih =>
      simp [bodyClean] at h
      simp only [compileBody, List.map_cons, List.flatten_cons, instrsClean_append]
      have h1 := instrsClean_compileStmt s h.1
      have h2 := ih h.2
      simp [compileBody] at h2
      simp [h1, h2]

theorem addSentinelL_length (k : Nat) :
    ∀ es : List Expr, (addSentinelL k es).length = es.length
  | [] => by simp [addSentinelL]
  | e :: es => by simp [addSentinelL, addSentinelL_length k es]

mutual
theorem noopE (k : Nat) :
    ∀ e : Expr, k ∉ exprCallIds e → compileExpr (addSentinelE k e) = compileExpr e
  | .name s => fun _ => rfl
  | .numLit n => fun _ => rfl
  | .strLit v => fun _ => rfl
  | .attributeE v a => fun h => by
      simp only [exprCallIds] at h
      simp [addSentinelE, compileExpr, noopE k v h]
  | .subscript v i => fun h => by
      simp only [exprCallIds, List.mem_append] at h
      push_neg at h
      simp [addSentinelE, compileExpr, noopE k v h.1, noopE k i h.2]
  | .tupleE es => fun h => by
      simp only [exprCallIds] at h
      simp [addSentinelE, compileExpr, noopL k es h, addSentinelL_length]
  | .listE es => fun h => by
      simp only [exprCallIds] at h
      simp [addSentinelE, compileExpr, noopL k es h, addSentinelL_length]
  | .starred v => fun h => by
      simp only [exprCallIds] at h
      simp [addSentinelE, compileExpr, noopE k v h]
  | .call cid f args kws => fun h => by
      simp only [exprCallIds, List.mem_append, List.mem_singleton] at h
      push_neg at h
      have hcid : ¬ cid = k := fun hh => h.2 hh.symm
      simp [addSentinelE, hcid, compileExpr, noopE k f h.1.1.1,
        noopL k args h.1.1.2, noopK k kws h.1.2]

theorem noopL (k : Nat) :
    ∀ es : List Expr, k ∉ exprListCallIds es →
      compileExprList (addSentinelL k es) = compileExprList es
  | [] => fun _ => rfl
  | e :: es => fun h => by
      simp only [exprListCallIds, List.mem_append] at h
      push_neg at h
      simp [addSentinelL, compileExprList, noopE k e h.1, noopL k es h.2]

theorem noopK (k : Nat) :
    ∀ ks : List Kw, k ∉ kwListCallIds ks →
      compileKwList (addSentinelK k ks) = compileKwList ks
  | [] => fun _ => rfl
  | .mk a v :: ks => fun h => by
      simp only [kwListCallIds, List.mem_append] at h
      push_neg at h
      simp [addSentinelK, compileKwList, noopE k v h.1, noopK k ks h.2]
end

mutual
theorem noopStore (k : Nat) :
    ∀ e : Expr, k ∉ storeCallIds e → compileStore (addSentinelE k e) = compileStore e
  | .name s => fun _ => rfl
  | .numLit n => fun _ => rfl
  | .strLit v => fun _ => rfl
  | .attributeE v a => fun h => by
      simp only [storeCallIds] at h
      simp [addSentinelE, compileStore, noopE k v h]
  | .subscript v i => fun h => by
      simp only [storeCallIds, List.mem_append] at h
      push_neg at h
      simp [addSentinelE, compileStore, noopE k v h.1, noopE k i h.2]
  | .tupleE es => fun h => by
      simp only [storeCallIds] at h
      simp [addSentinelE, compileStore, noopStoreL k es h, addSentinelL_length]
  | .listE es => fun h => by
      simp only [storeCallIds] at h
      simp [addSentinelE, compileStore, noopStoreL k es h, addSentinelL_length]
  | .starred v => fun h => by
      simp only [storeCallIds] at h
      simp [addSentinelE, compileStore, noopStore k v h]
  | .call cid f args kws => fun _ => by
      by_cases hc : cid = k <;> simp [addSentinelE, hc, compileStore]

theorem noopStoreL (k : Nat) :
    ∀ es : List Expr, k ∉ storeListCallIds es →
      compileStoreList (addSentinelL k es) = compileStoreList es
  | [] => fun _ => rfl
  | e :: es => fun h => by
      simp only [storeListCallIds, List.mem_append] at h
      push_neg at h
      simp [addSentinelL, compileStoreList, noopStore k e h.1, noopStoreL k es h.2]
end

theorem noopTargets (k : Nat) :
    ∀ ts : List Expr, k ∉ storeListCallIds ts →
      compileTargets (addSentinelL k ts) = compileTargets ts
  | [] => fun _ => rfl
  | [t] => fun h => by
      simp only [storeListCallIds, List.mem_append] at h
      push_neg at h
      simp [addSentinelL, compileTargets, noopStore k t h.1]
  | t :: t2 :: ts => fun h => by
      simp only [storeListCallIds, List.mem_append] at h
      push_neg at h
      have h2 : k ∉ storeListCallIds (t2 :: ts) := by
        simp only [storeListCallIds, List.mem_append]
        push_neg
        exact ⟨h.2.1, h.2.2⟩
      simp only [addSentinelL, compileTargets]
      rw [noopStore k t h.1]
      have := noopTargets k (t2 :: ts) h2
      simp only [addSentinelL] at this
      rw [this]

theorem noopS (k : Nat) (s : Stmt) (h : k ∉ stmtCallIds s) :
    compileStmt (addSentinelS k s) = compileStmt s := by
  cases s with
  | exprStmt l v =>
      simp only [stmtCallIds] at h
      simp [addSentinelS, compileStmt, noopE k v h]
  | assign l ts v =>
      simp only [stmtCallIds, List.mem_append] at h
      push_neg at h
      simp [addSentinelS, compileStmt, noopE k v h.1, noopTargets k ts h.2]

theorem noopBody (k : Nat) :
    ∀ body : List Stmt, k ∉ bodyCallIds body →
      compileBody (body.map (addSentinelS k)) = compileBody body
  | [] => fun _ => rfl
  | s :: ss => fun h => by
      simp only [bodyCallIds, List.map_cons, List.flatten_cons, List.mem_append] at h
      push_neg at h
      have h2 : k ∉ bodyCallIds ss := by
        simp only [bodyCallIds]
        exact h.2
      simp only [List.map_cons, compileBody, List.flatten_cons]
      rw [noopS k s h.1]
      have := noopBody k ss h2
      simp only [compileBody] at this
      rw [this]

theorem not_mem_left_of_nodup {A B : List Nat} {k : Nat} (h : (A ++ B).Nodup)
    (hk : k ∈ B) : k ∉ A :=
  fun hA => (nodup_parts h).2.2 k hA hk

theorem not_mem_right_of_nodup {A B : List Nat} {k : Nat} (h : (A ++ B).Nodup)
    (hk : k ∈ A) : k ∉ B :=
  (nodup_parts h).2.2 k hk

mutual
theorem spliceE (k : Nat) :
    ∀ e : Expr, (exprCallIds e).Nodup → k ∈ exprCallIds e →
      ∃ P S, compileExpr e = P ++ Instr.callFunc k :: S ∧
        compileExpr (addSentinelE k e) =
          P ++ Instr.loadConstStr sentinel :: Instr.callFunc k :: S
  | .name s => fun _ hk => by simp [exprCallIds] at hk
  | .numLit n => fun _ hk => by simp [exprCallIds] at hk
  | .strLit v => fun _ hk => by simp [exprCallIds] at hk
  | .attributeE v a => fun hn hk => by
      simp only [exprCallIds] at hn hk
      obtain ⟨P, S, e1, e2⟩ := spliceE k v hn hk
      exact ⟨P, S ++ [.loadAttr a],
        by simp [compileExpr, e1],
        by simp [addSentinelE, compileExpr, e2]⟩
  | .subscript v i => fun hn hk => by
      simp only [exprCallIds] at hn hk
      rcases List.mem_append.mp hk with hv | hi
      · obtain ⟨P, S, e1, e2⟩ := spliceE k v (nodup_parts hn).1 hv
        have hni : k ∉ exprCallIds i := not_mem_right_of_nodup hn hv
        exact ⟨P, S ++ compileExpr i ++ [.binarySubscr],
          by simp [compileExpr, e1],
          by simp [addSentinelE, compileExpr, e2, noopE k i hni]⟩
      · obtain ⟨P, S, e1, e2⟩ := spliceE k i (nodup_parts hn).2.1 hi
        have hnv : k ∉ exprCallIds v := not_mem_left_of_nodup hn hi
        exact ⟨compileExpr v ++ P, S ++ [.binarySubscr],
          by simp [compileExpr, e1],
          by simp [addSentinelE, compileExpr, e2, noopE k v hnv]⟩
  | .tupleE es => fun hn hk => by
      simp only [exprCallIds] at hn hk
      obtain ⟨P, S, e1, e2⟩ := spliceL k es hn hk
      exact ⟨P, S ++ [.buildTuple es.length],
        by simp [compileExpr, e1],
        by simp [addSentinelE, compileExpr, e2, addSentinelL_length]⟩
  | .listE es => fun hn hk => by
      simp only [exprCallIds] at hn hk
      obtain ⟨P, S, e1, e2⟩ := spliceL k es hn hk
      exact ⟨P, S ++ [.buildList es.length],
        by simp [compileExpr, e1],
        by simp [addSentinelE, compileExpr, e2, addSentinelL_length]⟩
  | .starred v => fun hn hk => by
      simp only [exprCallIds] at hn hk
      obtain ⟨P, S, e1, e2⟩ := spliceE k v hn hk
      exact ⟨P, S, by simp [compileExpr, e1], by simp [addSentinelE, compileExpr, e2]⟩
  | .call cid f args kws => fun hn hk => by
      simp only [exprCallIds] at hn hk
      have p1 := nodup_parts hn
      have p2 := nodup_parts p1.1
      have p3 := nodup_parts p2.1
      by_cases hc : cid = k
      · subst hc
        have hnABC : cid ∉ exprCallIds f ++ exprListCallIds args ++ kwListCallIds kws :=
          not_mem_left_of_nodup hn (by simp)
        have hnf : cid ∉ exprCallIds f := fun h => hnABC (by simp [h])
        have hna : cid ∉ exprListCallIds args := fun h => hnABC (by simp [h])
        have hnk : cid ∉ kwListCallIds kws := fun h => hnABC (by simp [h])
        refine ⟨compileExpr f ++ compileExprList args ++ compileKwList kws, [],
          by simp [compileExpr], ?_⟩
        simp [addSentinelE, compileExpr, noopE cid f hnf, noopL cid args hna,
          noopK cid kws hnk, compileKwList_append, compileKwList, compileExprList]
      · have hk2 : k ∈ exprCallIds f ∨ k ∈ exprListCallIds args ∨ k ∈ kwListCallIds kws := by
          rcases List.mem_append.mp hk with h1 | h1
          · rcases List.mem_append.mp h1 with h2 | h2
            · rcases List.mem_append.mp h2 with h3 | h3
              · exact Or.inl h3
              · exact Or.inr (Or.inl h3)
            · exact Or.inr (Or.inr h2)
          · simp at h1
            exact absurd h1.symm hc
        rcases hk2 with h1 | h1 | h1
        · obtain ⟨P, S, e1, e2⟩ := spliceE k f p3.1 h1
          have hna : k ∉ exprListCallIds args := p3.2.2 k h1
          have hnk : k ∉ kwListCallIds kws := p2.2.2 k (by simp [h1])
          refine ⟨P, S ++ compileExprList args ++ compileKwList kws ++ [.callFunc cid],
            by simp [compileExpr, e1], ?_⟩
          simp [addSentinelE, hc, compileExpr, e2, noopL k args hna, noopK k kws hnk]
        · have hnf : k ∉ exprCallIds f := fun hA => p3.2.2 k hA h1
          obtain ⟨P, S, e1, e2⟩ := spliceL k args p3.2.1 h1
          have hnk : k ∉ kwListCallIds kws := p2.2.2 k (by simp [h1])
          refine ⟨compileExpr f ++ P, S ++ compileKwList kws ++ [.callFunc cid],
            by simp [compileExpr, e1], ?_⟩
          simp [addSentinelE, hc, compileExpr, e2, noopE k f hnf, noopK k kws hnk]
        · have hnf : k ∉ exprCallIds f := fun hA => p2.2.2 k (by simp [hA]) h1
          have hna : k ∉ exprListCallIds args := fun hA => p2.2.2 k (by simp [hA]) h1
          obtain ⟨P, S, e1, e2⟩ := spliceK k kws p2.2.1 h1
          refine ⟨compileExpr f ++ compileExprList args ++ P, S ++ [.callFunc cid],
            by simp [compileExpr, e1], ?_⟩
          simp [addSentinelE, hc, compileExpr, e2, noopE k f hnf, noopL k args hna]

theorem spliceL (k : Nat) :
    ∀ es : List Expr, (exprListCallIds es).Nodup → k ∈ exprListCallIds es →
      ∃ P S, compileExprList es = P ++ Instr.callFunc k :: S ∧
        compileExprList (addSentinelL k es) =
          P ++ Instr.loadConstStr sentinel :: Instr.callFunc k :: S
  | [] => fun _ hk => by simp [exprListCallIds] at hk
  | e :: es => fun hn hk => by
      simp only [exprListCallIds] at hn hk
      rcases List.mem_append.mp hk with h1 | h1
      · obtain ⟨P, S, e1, e2⟩ := spliceE k e (nodup_parts hn).1 h1
        have hns : k ∉ exprListCallIds es := not_mem_right_of_nodup hn h1
        exact ⟨P, S ++ compileExprList es,
          by simp [compileExprList, e1],
          by simp [addSentinelL, compileExprList, e2, noopL k es hns]⟩
      · obtain ⟨P, S, e1, e2⟩ := spliceL k es (nodup_parts hn).2.1 h1
        have hne : k ∉ exprCallIds e := not_mem_left_of_nodup hn h1
        exact ⟨compileExpr e ++ P, S,
          by simp [compileExprList, e1],
          by simp [addSentinelL, compileExprList, e2, noopE k e hne]⟩

theorem spliceK (k : Nat) :
    ∀ ks : List Kw, (kwListCallIds ks).Nodup → k ∈ kwListCallIds ks →
      ∃ P S, compileKwList ks = P ++ Instr.callFunc k :: S ∧
        compileKwList (addSentinelK k ks) =
          P ++ Instr.loadConstStr sentinel :: Instr.callFunc k :: S
  | [] => fun _ hk => by simp [kwListCallIds] at hk
  | .mk a v :: ks => fun hn hk => by
      simp only [kwListCallIds] at hn hk
      rcases List.mem_append.mp hk with h1 | h1
      · obtain ⟨P, S, e1, e2⟩ := spliceE k v (nodup_parts hn).1 h1
        have hns : k ∉ kwListCallIds ks := not_mem_right_of_nodup hn h1
        exact ⟨P, S ++ compileKwList ks,
          by simp [compileKwList, e1],
          by simp [addSentinelK, compileKwList, e2, noopK k ks hns]⟩
      · obtain ⟨P, S, e1, e2⟩ := spliceK k ks (nodup_parts hn).2.1 h1
        have hne : k ∉ exprCallIds v := not_mem_left_of_nodup hn h1
        exact ⟨compileExpr v ++ P, S,
          by simp [compileKwList, e1],
          by simp [addSentinelK, compileKwList, e2, noopE k v hne]⟩
end

mutual
theorem spliceStore (k : Nat) :
    ∀ e : Expr, (storeCallIds e).Nodup → k ∈ storeCallIds e →
      ∃ P S, compileStore e = P ++ Instr.callFunc k :: S ∧
        compileStore (addSentinelE k e) =
          P ++ Instr.loadConstStr sentinel :: Instr.callFunc k :: S
  | .name s => fun _ hk => by simp [storeCallIds] at hk
  | .numLit n => fun _ hk => by simp [storeCallIds] at hk
  | .strLit v => fun _ hk => by simp [storeCallIds] at hk
  | .call cid f args kws => fun _ hk => by simp [storeCallIds] at hk
  | .attributeE v a => fun hn hk => by
      simp only [storeCallIds] at hn hk
      obtain ⟨P, S, e1, e2⟩ := spliceE k v hn hk
      exact ⟨P, S ++ [.storeAttr a],
        by simp [compileStore, e1],
        by simp [addSentinelE, compileStore, e2]⟩
  | .subscript v i => fun hn hk => by
      simp only [storeCallIds] at hn hk
      rcases List.mem_append.mp hk with hv | hi
      · obtain ⟨P, S, e1, e2⟩ := spliceE k v (nodup_parts hn).1 hv
        have hni : k ∉ exprCallIds i := not_mem_right_of_nodup hn hv
        exact ⟨P, S ++ compileExpr i ++ [.storeSubscr],
          by simp [compileStore, e1],
          by simp [addSentinelE, compileStore, e2, noopE k i hni]⟩
      · obtain ⟨P, S, e1, e2⟩ := spliceE k i (nodup_parts hn).2.1 hi
        have hnv : k ∉ exprCallIds v := not_mem_left_of_nodup hn hi
        exact ⟨compileExpr v ++ P, S ++ [.storeSubscr],
          by simp [compileStore, e1],
          by simp [addSentinelE, compileStore, e2, noopE k v hnv]⟩
  | .tupleE es => fun hn hk => by
      simp only [storeCallIds] at hn hk
      obtain ⟨P, S, e1, e2⟩ := spliceStoreL k es hn hk
      exact ⟨.unpackSequence es.length :: P, S,
        by simp [compileStore, e1],
        by simp [addSentinelE, compileStore, e2, addSentinelL_length]⟩
  | .listE es => fun hn hk => by
      simp only [storeCallIds] at hn hk
      obtain ⟨P, S, e1, e2⟩ := spliceStoreL k es hn hk
      exact ⟨.unpackSequence es.length :: P, S,
        by simp [compileStore, e1],
        by simp [addSentinelE, compileStore, e2, addSentinelL_length]⟩
  | .starred v => fun hn hk => by
      simp only [storeCallIds] at hn hk
      obtain ⟨P, S, e1, e2⟩ := spliceStore k v hn hk
      exact ⟨P, S, by simp [compileStore, e1], by simp [addSentinelE, compileStore, e2]⟩

theorem spliceStoreL (k : Nat) :
    ∀ es : List Expr, (storeListCallIds es).Nodup → k ∈ storeListCallIds es →
      ∃ P S, compileStoreList es = P ++ Instr.callFunc k :: S ∧
        compileStoreList (addSentinelL k es) =
          P ++ Instr.loadConstStr sentinel :: Instr.callFunc k :: S
  | [] => fun _ hk => by simp [storeListCallIds] at hk
  | e :: es => fun hn hk => by
      simp only [storeListCallIds] at hn hk
      rcases List.mem_append.mp hk with h1 | h1
      · obtain ⟨P, S, e1, e2⟩ := spliceStore k e (nodup_parts hn).1 h1
        have hns : k ∉ storeListCallIds es := not_mem_right_of_nodup hn h1
        exact ⟨P, S ++ compileStoreList es,
          by simp [compileStoreList, e1],
          by simp [addSentinelL, compileStoreList, e2, noopStoreL k es hns]⟩
      · obtain ⟨P, S, e1, e2⟩ := spliceStoreL k es (nodup_parts hn).2.1 h1
        have hne : k ∉ storeCallIds e := not_mem_left_of_nodup hn h1
        exact ⟨compileStore e ++ P, S,
          by simp [compileStoreList, e1],
          by simp [addSentinelL, compileStoreList, e2, noopStore k e hne]⟩
end

theorem spliceTargets (k : Nat) :
    ∀ ts : List Expr, (storeListCallIds ts).Nodup → k ∈ storeListCallIds ts →
      ∃ P S, compileTargets ts = P ++ Instr.callFunc k :: S ∧
        compileTargets (addSentinelL k ts) =
          P ++ Instr.loadConstStr sentinel :: Instr.callFunc k :: S
  | [] => fun _ hk => by simp [storeListCallIds] at hk
  | [t] => fun hn hk => by
      simp only [storeListCallIds] at hn hk
      simp only [List.append_nil] at hn hk
      obtain ⟨P, S, e1, e2⟩ := spliceStore k t hn hk
      exact ⟨P, S,
        by simp [compileTargets, e1],
        by simp [addSentinelL, compileTargets, e2]⟩
  | t :: t2 :: ts => fun hn hk => by
      simp only [storeListCallIds] at hn hk
      rcases List.mem_append.mp hk with h1 | h1
      · obtain ⟨P, S, e1, e2⟩ := spliceStore k t (nodup_parts hn).1 h1
        have hns : k ∉ storeListCallIds (t2 :: ts) := not_mem_right_of_nodup hn h1
        refine ⟨.dupTop :: P, S ++ compileTargets (t2 :: ts),
          by simp [compileTargets, e1], ?_⟩
        have hnoop := noopTargets k (t2 :: ts) hns
        simp only [addSentinelL] at hnoop ⊢
        simp [compileTargets, e2, hnoop]
      · obtain ⟨P, S, e1, e2⟩ := spliceTargets k (t2 :: ts) (nodup_parts hn).2.1 h1
        have hne : k ∉ storeCallIds t := not_mem_left_of_nodup hn h1
        refine ⟨.dupTop :: compileStore t ++ P, S, ?_, ?_⟩
        · simp [compileTargets, e1]
        · simp only [addSentinelL] at e2 ⊢
          simp [compileTargets, e2, noopStore k t hne]

theorem spliceStmt (k : Nat) (s : Stmt) (hn : (stmtCallIds s).Nodup)
    (hk : k ∈ stmtCallIds s) :
    ∃ P S, compileStmt s = P ++ Instr.callFunc k :: S ∧
      compileStmt (addSentinelS k s) =
        P ++ Instr.loadConstStr sentinel :: Instr.callFunc k :: S := by
  cases s with
  | exprStmt l v =>
      simp only [stmtCallIds] at hn hk
      obtain ⟨P, S, e1, e2⟩ := spliceE k v hn hk
      exact ⟨P, S ++ [.popTop],
        by simp [compileStmt, e1],
        by simp [addSentinelS, compileStmt, e2]⟩
  | assign l ts v =>
      simp only [stmtCallIds] at hn hk
      rcases List.mem_append.mp hk with h1 | h1
      · obtain ⟨P, S, e1, e2⟩ := spliceE k v (nodup_parts hn).1 h1
        have hns : k ∉ storeListCallIds ts := not_mem_right_of_nodup hn h1
        exact ⟨P, S ++ compileTargets ts,
          by simp [compileStmt, e1],
          by simp [addSentinelS, compileStmt, e2, noopTargets k ts hns]⟩
      · obtain ⟨P, S, e1, e2⟩ := spliceTargets k ts (nodup_parts hn).2.1 h1
        have hne : k ∉ exprCallIds v := not_mem_left_of_nodup hn h1
        exact ⟨compileExpr v ++ P, S,
          by simp [compileStmt, e1],
          by simp [addSentinelS, compileStmt, e2, noopE k v hne]⟩

theorem spliceBody (k : Nat) :
    ∀ body : List Stmt, (bodyCallIds body).Nodup → k ∈ bodyCallIds body →
      ∃ P S, compileBody body = P ++ Instr.callFunc k :: S ∧
        compileBody (body.map (addSentinelS k)) =
          P ++ Instr.loadConstStr sentinel :: Instr.callFunc k :: S
  | [] => fun _ hk => by simp [bodyCallIds] at hk
  | s :: ss => fun hn hk => by
      simp only [bodyCallIds, List.map_cons, List.flatten_cons] at hn hk
      have hss : bodyCallIds ss = (ss.map stmtCallIds).flatten := rfl
      rcases List.mem_append.mp hk with h1 | h1
      · obtain ⟨P, S, e1, e2⟩ := spliceStmt k s (nodup_parts hn).1 h1
        have hns : k ∉ bodyCallIds ss := by
          rw [hss]; exact not_mem_right_of_nodup hn h1
        refine ⟨P, S ++ compileBody ss, ?_, ?_⟩
        · simp only [compileBody, List.map_cons, List.flatten_cons]
          simp [e1, compileBody]
        · have hnoop := noopBody k ss hns
          simp only [List.map_cons, compileBody, List.flatten_cons]
          simp [e2, compileBody] at hnoop ⊢
          simp [hnoop]
      · obtain ⟨P, S, e1, e2⟩ := spliceBody k ss (by rw [hss] at *; exact (nodup_parts hn).2.1)
          (by rw [hss]; exact h1)
        have hne : k ∉ stmtCallIds s := not_mem_left_of_nodup hn h1
        refine ⟨compileStmt s ++ P, S, ?_, ?_⟩
        · simp only [compileBody, List.map_cons, List.flatten_cons]
          simp [compileBody] at e1
          simp [e1]
        · simp only [compileBody, List.map_cons, List.flatten_cons]
          simp [compileBody] at e2
          simp [e2, noopS k s hne]

mutual
/-- All nodes of an expression subtree (the node itself first), depth first. -/
def subsE : Expr → List TreeNode
  | .name s => [.exprN (.name s)]
  | .numLit n => [.exprN (.numLit n)]
  | .strLit v => [.exprN (.strLit v)]
  | .attributeE v a => .exprN (.attributeE v a) :: subsE v
  | .subscript v i => .exprN (.subscript v i) :: (subsE v ++ subsE i)
  | .tupleE es => .exprN (.tupleE es) :: subsL es
  | .listE es => .exprN (.listE es) :: subsL es
  | .starred v => .exprN (.starred v) :: subsE v
  | .call cid f args kws =>
      .exprN (.call cid f args kws) :: (subsE f ++ (subsL args ++ subsK kws))

/-- Nodes of a list of expression subtrees. -/
def subsL : List Expr → List TreeNode
  | [] => []
  | e :: es => subsE e ++ subsL es

/-- Nodes of a list of keyword subtrees. -/
def subsK : List Kw → List TreeNode
  | [] => []
  | .mk a v :: ks => (.kwN (.mk a v) :: subsE v) ++ subsK ks
end

/-- All nodes of a statement subtree. -/
def subsS : Stmt → List TreeNode
  | .exprStmt l v => .stmtN (.exprStmt l v) :: subsE v
  | .assign l ts v => .stmtN (.assign l ts v) :: (subsL ts ++ subsE v)

/-- Nodes of a keyword subtree. -/
def subsKw : Kw → List TreeNode
  | .mk a v => .kwN (.mk a v) :: subsE v

/-- All nodes of a tree node's subtree. -/
def subsN : TreeNode → List TreeNode
  | .stmtN s => subsS s
  | .exprN e => subsE e
  | .kwN kw => subsKw kw

/-- All nodes of the subtrees of a statement group. -/
def subsStmts (stmts : List Stmt) : List TreeNode :=
  (stmts.map subsS).flatten

theorem subsL_eq_flatten (es : List Expr) :
    (es.map subsE).flatten = subsL es := by
  induction es with
  | nil => simp [subsL]
  | cons e es ih => simp [subsL, ih]

theorem subsK_eq_flatten (ks : List Kw) :
    (ks.map subsKw).flatten = subsK ks := by
  induction ks with
  | nil => simp [subsK]
  | cons kwh ks ih =>
      cases kwh with
      | mk a v => simp [subsK, subsKw, ih]

theorem subsN_eq (n : TreeNode) :
    subsN n = n :: ((children n).map subsN).flatten := by
  cases n with
  | stmtN s =>
      cases s with
      | exprStmt l v => simp [subsN, subsS, children]
      | assign l ts v =>
          simp [subsN, subsS, children, Function.comp_def, subsL_eq_flatten]
  | exprN e =>
      cases e with
      | name s => simp [subsN, subsE, children]
      | numLit n2 => simp [subsN, subsE, children]
      | strLit v => simp [subsN, subsE, children]
      | attributeE v a => simp [subsN, subsE, children]
      | subscript v i => simp [subsN, subsE, children]
      | tupleE es => simp [subsN, subsE, children, Function.comp_def, subsL_eq_flatten]
      | listE es => simp [subsN, subsE, children, Function.comp_def, subsL_eq_flatten]
      | starred v => simp [subsN, subsE, children]
      | call cid f args kws =>
          simp [subsN, subsE, children, Function.comp_def, subsL_eq_flatten,
            subsK_eq_flatten]
  | kwN kwh =>
      cases kwh with
      | mk a v => simp [subsN, subsKw, children]

theorem sumN_append (A B : List TreeNode) : sumN (A ++ B) = sumN A + sumN B := by
  induction A with
  | nil => simp [sumN]
  | cons a as ih =>
      simp only [List.cons_append, sumN, List.append_eq, ih]
      omega

theorem sumN_map_exprN (es : List Expr) : sumN (es.map TreeNode.exprN) = sizeL es := by
  induction es with
  | nil => simp [sumN, sizeL]
  | cons e es ih => simp [sumN, sizeL, sizeN, ih]

theorem sumN_map_kwN (ks : List Kw) : sumN (ks.map TreeNode.kwN) = sizeK ks := by
  induction ks with
  | nil => simp [sumN, sizeK]
  | cons kwh ks ih =>
      cases kwh with
      | mk a v =>
          simp only [List.map_cons, sumN, sizeK, sizeN, ih]
          try omega

theorem sizeE_pos (e : Expr) : 1 ≤ sizeE e := by
  cases e <;> simp [sizeE] <;> try omega

theorem sizeN_pos (n : TreeNode) : 1 ≤ sizeN n := by
  cases n with
  | stmtN s => cases s <;> simp [sizeN, sizeS] <;> try omega
  | exprN e => simpa [sizeN] using sizeE_pos e
  | kwN kwh =>
      cases kwh with
      | mk a v =>
          simp only [sizeN]
          omega

theorem children_size (n : TreeNode) : sumN (children n) < sizeN n := by
  cases n with
  | stmtN s =>
      cases s with
      | exprStmt l v =>
          simp only [children, sumN, sizeN, sizeS]
          omega
      | assign l ts v =>
          simp only [children, sizeN, sizeS, sumN_append, sumN_map_exprN, sumN]
          omega
  | exprN e =>
      cases e with
      | name s => simp [children, sumN, sizeN, sizeE]
      | numLit n2 => simp [children, sumN, sizeN, sizeE]
      | strLit v => simp [children, sumN, sizeN, sizeE]
      | attributeE v a =>
          simp only [children, sumN, sizeN, sizeE]
          omega
      | subscript v i =>
          simp only [children, sumN, sizeN, sizeE]
          omega
      | tupleE es =>
          simp only [children, sumN_map_exprN, sizeN, sizeE]
          omega
      | listE es =>
          simp only [children, sumN_map_exprN, sizeN, sizeE]
          omega
      | starred v =>
          simp only [children, sumN, sizeN, sizeE]
          omega
      | call cid f args kws =>
          simp only [children, sumN, sumN_append, sumN_map_exprN, sumN_map_kwN,
            sizeN, sizeE, List.cons_append]
          omega
  | kwN kwh =>
      cases kwh with
      | mk a v =>
          simp only [children, sumN, sizeN]
          have := sizeE_pos v
          omega

theorem sumN_nil_of_zero {q : List TreeNode} (h : sumN q = 0) : q = [] := by
  cases q with
  | nil => rfl
  | cons n ns =>
      exfalso
      have := sizeN_pos n
      simp [sumN] at h
      omega

theorem walkFuel_mem :
    ∀ (fuel : Nat) (q : List TreeNode), sumN q ≤ fuel →
      ∀ x, x ∈ walkFuel fuel q ↔ ∃ n ∈ q, x ∈ subsN n := by
  intro fuel
  induction fuel with
  | zero =>
      intro q hq x
      have : q = [] := sumN_nil_of_zero (Nat.le_zero.mp hq)
      subst this
      simp [walkFuel]
  | succ f ih =>
      intro q hq x
      cases q with
      | nil => simp [walkFuel]
      | cons n rest =>
          have hsum : sumN (rest ++ children n) ≤ f := by
            have h1 := children_size n
            have h2 : sumN (n :: rest) = sizeN n + sumN rest := rfl
            rw [sumN_append]
            rw [h2] at hq
            have h3 := sizeN_pos n
            omega
          have hrec := ih (rest ++ children n) hsum x
          simp only [walkFuel, List.mem_cons, hrec]
          constructor
          · rintro (h | ⟨m, hm, hx⟩)
            · refine ⟨n, Or.inl rfl, ?_⟩
              rw [subsN_eq n, h]
              exact List.mem_cons_self _ _
            · rcases List.mem_append.mp hm with h1 | h1
              · exact ⟨m, Or.inr h1, hx⟩
              · refine ⟨n, Or.inl rfl, ?_⟩
                rw [subsN_eq n]
                refine List.mem_cons_of_mem _ ?_
                exact List.mem_flatten.mpr ⟨subsN m, List.mem_map.mpr ⟨m, h1, rfl⟩, hx⟩
          · rintro ⟨m, h1 | h1, hx⟩
            · subst h1
              rw [subsN_eq m] at hx
              rcases List.mem_cons.mp hx with h2 | h2
              · exact Or.inl h2
              · obtain ⟨ll, hll, hxll⟩ := List.mem_flatten.mp h2
                obtain ⟨m2, hm2, hll2⟩ := List.mem_map.mp hll
                subst hll2
                exact Or.inr ⟨m2, List.mem_append_right rest hm2, hxll⟩
            · exact Or.inr ⟨m, List.mem_append_left _ h1, hx⟩

theorem walk_mem (q : List TreeNode) (x : TreeNode) :
    x ∈ walk q ↔ ∃ n ∈ q, x ∈ subsN n :=
  walkFuel_mem (sumN q) q (le_refl _) x

theorem asCall_eq_some {n : TreeNode} {c : Expr} :
    asCall n = some c ↔
      n = .exprN c ∧ ∃ cid f args kws, c = .call cid f args kws := by
  constructor
  · intro h
    cases n with
    | stmtN s => simp [asCall] at h
    | kwN kwh => simp [asCall] at h
    | exprN e =>
        cases e <;> simp [asCall] at h
        case call cid f args kws =>
          exact ⟨by rw [h], cid, f, args, kws, h.symm⟩
  · rintro ⟨hn, cid, f, args, kws, hc⟩
    subst hn
    subst hc
    rfl

theorem mem_walkCalls {stmts : List Stmt} {c : Expr} :
    c ∈ walkCalls stmts ↔
      (∃ cid f args kws, c = Expr.call cid f args kws) ∧
        TreeNode.exprN c ∈ subsStmts stmts := by
  unfold walkCalls subsStmts
  simp only [List.mem_flatten, List.mem_map]
  constructor
  · rintro ⟨ll, ⟨s, hs, hll⟩, hc⟩
    subst hll
    rcases List.mem_filterMap.mp hc with ⟨n, hn, hcall⟩
    obtain ⟨hn2, hshape⟩ := asCall_eq_some.mp hcall
    subst hn2
    have := (walk_mem [TreeNode.stmtN s] (TreeNode.exprN c)).mp hn
    obtain ⟨m, hm, hsub⟩ := this
    simp only [List.mem_singleton] at hm
    subst hm
    exact ⟨hshape, ⟨subsS s, ⟨s, hs, rfl⟩, by simpa [subsN] using hsub⟩⟩
  · rintro ⟨hshape, ll, ⟨s, hs, hll⟩, hc⟩
    subst hll
    refine ⟨(walk [TreeNode.stmtN s]).filterMap asCall, ⟨s, hs, rfl⟩, ?_⟩
    apply List.mem_filterMap.mpr
    refine ⟨TreeNode.exprN c, ?_, asCall_eq_some.mpr ⟨rfl, hshape⟩⟩
    apply (walk_mem [TreeNode.stmtN s] (TreeNode.exprN c)).mpr
    exact ⟨TreeNode.stmtN s, List.mem_singleton.mpr rfl, by simpa [subsN] using hc⟩

/-- The ghost label of a call node. -/
def callIdOf : Expr → Option Nat
  | .call cid _ _ _ => some cid
  | _ => none

/-- Is this walked node an `ast.Call` labelled `k`. -/
def isCallLabelled (k : Nat) : TreeNode → Bool
  | .exprN (.call cid _ _ _) => cid == k
  | _ => false

/-- The number of call nodes labelled `k` in a node list. -/
def callsLabelled (k : Nat) (l : List TreeNode) : Nat :=
  l.countP (isCallLabelled k)

mutual
/-- Is the expression a legal Python assignment-target shape (the shapes the
compiler accepts in store context). -/
def validTargetE : Expr → Bool
  | .name _ => true
  | .attributeE _ _ => true
  | .subscript _ _ => true
  | .tupleE es => validTargetL es
  | .listE es => validTargetL es
  | .starred v => validTargetE v
  | .numLit _ => false
  | .strLit _ => false
  | .call _ _ _ _ => false

/-- Valid target shapes, for a target list. -/
def validTargetL : List Expr → Bool
  | [] => true
  | e :: es => validTargetE e && validTargetL es
end

/-- All assignment targets of the statement are legal target shapes. -/
def stmtTargetsValid : Stmt → Bool
  | .exprStmt _ _ => true
  | .assign _ ts _ => validTargetL ts

/-- All assignment targets of the body are legal target shapes. -/
def bodyTargetsValid : List Stmt → Bool
  | [] => true
  | s :: ss => stmtTargetsValid s && bodyTargetsValid ss

theorem callsLabelled_append (k : Nat) (A B : List TreeNode) :
    callsLabelled k (A ++ B) = callsLabelled k A + callsLabelled k B := by
  simp [callsLabelled, List.countP_append]

mutual
theorem callsLabelled_subsE (k : Nat) :
    ∀ e : Expr, callsLabelled k (subsE e) = (exprCallIds e).count k
  | .name s => by simp [subsE, callsLabelled, exprCallIds, isCallLabelled]
  | .numLit n => by simp [subsE, callsLabelled, exprCallIds, isCallLabelled]
  | .strLit v => by simp [subsE, callsLabelled, exprCallIds, isCallLabelled]
  | .attributeE v a => by
      simp only [subsE, exprCallIds, callsLabelled, List.countP_cons,
        isCallLabelled]
      have := callsLabelled_subsE k v
      simp [callsLabelled] at this
      simp [this]
  | .subscript v i => by
      simp only [subsE, exprCallIds, callsLabelled, List.countP_cons,
        List.countP_append, isCallLabelled, List.count_append]
      have h1 := callsLabelled_subsE k v
      have h2 := callsLabelled_subsE k i
      simp [callsLabelled] at h1 h2
      simp [h1, h2]
  | .tupleE es => by
      simp only [subsE, exprCallIds, callsLabelled, List.countP_cons,
        isCallLabelled]
      have := callsLabelled_subsL k es
      simp [callsLabelled] at this
      simp [this]
  | .listE es => by
      simp only [subsE, exprCallIds, callsLabelled, List.countP_cons,
        isCallLabelled]
      have := callsLabelled_subsL k es
      simp [callsLabelled] at this
      simp [this]
  | .starred v => by
      simp only [subsE, exprCallIds, callsLabelled, List.countP_cons,
        isCallLabelled]
      have := callsLabelled_subsE k v
      simp [callsLabelled] at this
      simp [this]
  | .call cid f args kws => by
      simp only [subsE, exprCallIds, callsLabelled, List.countP_cons,
        List.countP_append, isCallLabelled, List.count_append]
      have h1 := callsLabelled_subsE k f
      have h2 := callsLabelled_subsL k args
      have h3 := callsLabelled_subsK k kws
      simp [callsLabelled] at h1 h2 h3
      simp [h1, h2, h3, List.count_cons, List.count_nil]
      omega

theorem callsLabelled_subsL (k : Nat) :
    ∀ es : List Expr, callsLabelled k (subsL es) = (exprListCallIds es).count k
  | [] => by simp [subsL, callsLabelled, exprListCallIds]
  | e :: es => by
      simp only [subsL, exprListCallIds, callsLabelled, List.countP_append,
        List.count_append]
      have h1 := callsLabelled_subsE k e
      have h2 := callsLabelled_subsL k es
      simp [callsLabelled] at h1 h2
      simp [h1, h2]

theorem callsLabelled_subsK (k : Nat) :
    ∀ ks : List Kw, callsLabelled k (subsK ks) = (kwListCallIds ks).count k
  | [] => by simp [subsK, callsLabelled, kwListCallIds]
  | .mk a v :: ks => by
      simp only [subsK, kwListCallIds, callsLabelled, List.countP_append,
        List.countP_cons, List.count_append, isCallLabelled]
      have h1 := callsLabelled_subsE k v
      have h2 := callsLabelled_subsK k ks
      simp [callsLabelled] at h1 h2
      simp [h1, h2]
end

mutual
theorem callsLabelled_store (k : Nat) :
    ∀ e : Expr, validTargetE e = true →
      callsLabelled k (subsE e) = (storeCallIds e).count k
  | .name s => fun _ => by simp [subsE, callsLabelled, storeCallIds, isCallLabelled]
  | .numLit n => fun h => by simp [validTargetE] at h
  | .strLit v => fun h => by simp [validTargetE] at h
  | .call cid f args kws => fun h => by simp [validTargetE] at h
  | .attributeE v a => fun _ => by
      simp only [subsE, storeCallIds, callsLabelled, List.countP_cons,
        isCallLabelled]
      have := callsLabelled_subsE k v
      simp [callsLabelled] at this
      simp [this]
  | .subscript v i => fun _ => by
      simp only [subsE, storeCallIds, callsLabelled, List.countP_cons,
        List.countP_append, isCallLabelled, List.count_append]
      have h1 := callsLabelled_subsE k v
      have h2 := callsLabelled_subsE k i
      simp [callsLabelled] at h1 h2
      simp [h1, h2]
  | .tupleE es => fun h => by
      simp only [validTargetE] at h
      simp only [subsE, storeCallIds, callsLabelled, List.countP_cons,
        isCallLabelled]
      have := callsLabelled_storeL k es h
      simp [callsLabelled] at this
      simp [this]
  | .listE es => fun h => by
      simp only [validTargetE] at h
      simp only [subsE, storeCallIds, callsLabelled, List.countP_cons,
        isCallLabelled]
      have := callsLabelled_storeL k es h
      simp [callsLabelled] at this
      simp [this]
  | .starred v => fun h => by
      simp only [validTargetE] at h
      simp only [subsE, storeCallIds, callsLabelled, List.countP_cons,
        isCallLabelled]
      have := callsLabelled_store k v h
      simp [callsLabelled] at this
      simp [this]

theorem callsLabelled_storeL (k : Nat) :
    ∀ es : List Expr, validTargetL es = true →
      callsLabelled k (subsL es) = (storeListCallIds es).count k
  | [] => fun _ => by simp [subsL, callsLabelled, storeListCallIds]
  | e :: es => fun h => by
      simp only [validTargetL, Bool.and_eq_true] at h
      simp only [subsL, storeListCallIds, callsLabelled, List.countP_append,
        List.count_append]
      have h1 := callsLabelled_store k e h.1
      have h2 := callsLabelled_storeL k es h.2
      simp [callsLabelled] at h1 h2
      simp [h1, h2]
end

theorem callsLabelled_subsS (k : Nat) (s : Stmt) (h : stmtTargetsValid s = true) :
    callsLabelled k (subsS s) = (stmtCallIds s).count k := by
  cases s with
  | exprStmt l v =>
      simp only [subsS, stmtCallIds, callsLabelled, List.countP_cons,
        isCallLabelled]
      have := callsLabelled_subsE k v
      simp [callsLabelled] at this
      simp [this]
  | assign l ts v =>
      simp only [stmtTargetsValid] at h
      simp only [subsS, stmtCallIds, callsLabelled, List.countP_cons,
        List.countP_append, isCallLabelled, List.count_append]
      have h1 := callsLabelled_storeL k ts h
      have h2 := callsLabelled_subsE k v
      simp [callsLabelled] at h1 h2
      simp [h1, h2]
      omega

theorem callsLabelled_subsStmts (k : Nat) :
    ∀ stmts : List Stmt, bodyTargetsValid stmts = true →
      callsLabelled k (subsStmts stmts) = (bodyCallIds stmts).count k
  | [] => fun _ => by simp [subsStmts, callsLabelled, bodyCallIds]
  | s :: ss => fun h => by
      simp only [bodyTargetsValid, Bool.and_eq_true] at h
      simp only [subsStmts, bodyCallIds, List.map_cons, List.flatten_cons,
        callsLabelled_append, List.count_append]
      have h1 := callsLabelled_subsS k s h.1
      have h2 := callsLabelled_subsStmts k ss h.2
      simp [subsStmts, bodyCallIds] at h2
      simp [h1, h2]

theorem countP_two {α : Type} (p : α → Bool) :
    ∀ (l : List α) (a b : α), a ∈ l → b ∈ l → a ≠ b → p a = true → p b = true →
      2 ≤ l.countP p := by
  intro l
  induction l with
  | nil => intro a b ha; simp at ha
  | cons x xs ih =>
      intro a b ha hb hne hpa hpb
      rcases List.mem_cons.mp ha with h1 | h1
      · subst h1
        have hbxs : b ∈ xs := by
          rcases List.mem_cons.mp hb with h2 | h2
          · exact absurd h2.symm hne
          · exact h2
        simp [List.countP_cons, hpa]
        exact ⟨b, hbxs, hpb⟩
      · rcases List.mem_cons.mp hb with h2 | h2
        · subst h2
          simp [List.countP_cons, hpb]
          exact ⟨a, h1, hpa⟩
        · have := ih a b h1 h2 hne hpa hpb
          simp [List.countP_cons]
          omega

theorem mem_bodyCallIds_of_node {stmts : List Stmt} {k : Nat}
    {f : Expr} {args : List Expr} {kws : List Kw}
    (hv : bodyTargetsValid stmts = true)
    (hmem : TreeNode.exprN (.call k f args kws) ∈ subsStmts stmts) :
    k ∈ bodyCallIds stmts := by
  have hcount := callsLabelled_subsStmts k stmts hv
  have hpos : 0 < callsLabelled k (subsStmts stmts) := by
    rw [callsLabelled, List.countP_pos]
    exact ⟨_, hmem, by simp [isCallLabelled]⟩
  rw [hcount] at hpos
  exact List.count_pos_iff_mem.mp hpos

theorem uniq_call_node {stmts : List Stmt} {k : Nat} {c1 c2 : Expr}
    (hv : bodyTargetsValid stmts = true)
    (hn : (bodyCallIds stmts).Nodup)
    (h1 : TreeNode.exprN c1 ∈ subsStmts stmts)
    (h2 : TreeNode.exprN c2 ∈ subsStmts stmts)
    (hc1 : callIdOf c1 = some k) (hc2 : callIdOf c2 = some k) : c1 = c2 := by
  by_contra hne
  have hp1 : isCallLabelled k (TreeNode.exprN c1) = true := by
    cases c1 <;> simp [callIdOf] at hc1
    simp [isCallLabelled, hc1]
  have hp2 : isCallLabelled k (TreeNode.exprN c2) = true := by
    cases c2 <;> simp [callIdOf] at hc2
    simp [isCallLabelled, hc2]
  have htwo : 2 ≤ (subsStmts stmts).countP (isCallLabelled k) :=
    countP_two _ _ _ _ h1 h2 (fun hh => hne (by injection hh)) hp1 hp2
  have hcount := callsLabelled_subsStmts k stmts hv
  rw [callsLabelled] at hcount
  rw [hcount] at htwo
  have := List.nodup_iff_count_le_one.mp hn k
  omega

/-- First-of-two choice on options (used to search subtrees in order). -/
def orO {α : Type} : Option α → Option α → Option α
  | some x, _ => some x
  | none, y => y

mutual
/-- The first call node labelled `k` in an expression subtree, if any. -/
def lookupE (k : Nat) : Expr → Option Expr
  | .name _ => none
  | .numLit _ => none
  | .strLit _ => none
  | .attributeE v _ => lookupE k v
  | .subscript v i => orO (lookupE k v) (lookupE k i)
  | .tupleE es => lookupL k es
  | .listE es => lookupL k es
  | .starred v => lookupE k v
  | .call cid f args kws =>
      if cid = k then some (.call cid f args kws)
      else orO (lookupE k f) (orO (lookupL k args) (lookupK k kws))

/-- Lookup over an expression list. -/
def lookupL (k : Nat) : List Expr → Option Expr
  | [] => none
  | e :: es => orO (lookupE k e) (lookupL k es)

/-- Lookup over a keyword list. -/
def lookupK (k : Nat) : List Kw → Option Expr
  | [] => none
  | .mk _ v :: ks => orO (lookupE k v) (lookupK k ks)
end

/-- Lookup over a statement. -/
def lookupS (k : Nat) : Stmt → Option Expr
  | .exprStmt _ v => lookupE k v
  | .assign _ ts v => orO (lookupL k ts) (lookupE k v)

/-- The first call node labelled `k` in a statement group, if any. -/
def lookupCall (k : Nat) : List Stmt → Option Expr
  | [] => none
  | s :: ss => orO (lookupS k s) (lookupCall k ss)

theorem orO_eq_some {α : Type} {a b : Option α} {c : α} (h : orO a b = some c) :
    a = some c ∨ b = some c := by
  cases a with
  | some x => simp [orO] at h; simp [h]
  | none => simp [orO] at h; simp [h]

mutual
theorem lookupE_sound (k : Nat) :
    ∀ e : Expr, ∀ c : Expr, lookupE k e = some c →
      callIdOf c = some k ∧ TreeNode.exprN c ∈ subsE e
  | .name s => fun c h => by simp [lookupE] at h
  | .numLit n => fun c h => by simp [lookupE] at h
  | .strLit v => fun c h => by simp [lookupE] at h
  | .attributeE v a => fun c h => by
      obtain ⟨h1, h2⟩ := lookupE_sound k v c h
      exact ⟨h1, by simp [subsE, h2]⟩
  | .subscript v i => fun c h => by
      simp only [lookupE] at h
      rcases orO_eq_some h with h1 | h1
      · obtain ⟨g1, g2⟩ := lookupE_sound k v c h1
        exact ⟨g1, by simp [subsE, g2]⟩
      · obtain ⟨g1, g2⟩ := lookupE_sound k i c h1
        exact ⟨g1, by simp [subsE, g2]⟩
  | .tupleE es => fun c h => by
      obtain ⟨h1, h2⟩ := lookupL_sound k es c h
      exact ⟨h1, by simp [subsE, h2]⟩
  | .listE es => fun c h => by
      obtain ⟨h1, h2⟩ := lookupL_sound k es c h
      exact ⟨h1, by simp [subsE, h2]⟩
  | .starred v => fun c h => by
      obtain ⟨h1, h2⟩ := lookupE_sound k v c h
      exact ⟨h1, by simp [subsE, h2]⟩
  | .call cid f args kws => fun c h => by
      simp only [lookupE] at h
      by_cases hc : cid = k
      · subst hc
        rw [if_pos rfl] at h
        have hc2 : c = Expr.call cid f args kws := by
          injection h with hh
          exact hh.symm
        subst hc2
        exact ⟨by simp [callIdOf], by simp [subsE]⟩
      · rw [if_neg hc] at h
        rcases orO_eq_some h with h1 | h1
        · obtain ⟨g1, g2⟩ := lookupE_sound k f c h1
          exact ⟨g1, by simp [subsE, g2]⟩
        · rcases orO_eq_some h1 with h2 | h2
          · obtain ⟨g1, g2⟩ := lookupL_sound k args c h2
            exact ⟨g1, by simp [subsE, g2]⟩
          · obtain ⟨g1, g2⟩ := lookupK_sound k kws c h2
            exact ⟨g1, by simp [subsE, g2]⟩

theorem lookupL_sound (k : Nat) :
    ∀ es : List Expr, ∀ c : Expr, lookupL k es = some c →
      callIdOf c = some k ∧ TreeNode.exprN c ∈ subsL es
  | [] => fun c h => by simp [lookupL] at h
  | e :: es => fun c h => by
      simp only [lookupL] at h
      rcases orO_eq_some h with h1 | h1
      · obtain ⟨g1, g2⟩ := lookupE_sound k e c h1
        exact ⟨g1, by simp [subsL, g2]⟩
      · obtain ⟨g1, g2⟩ := lookupL_sound k es c h1
        exact ⟨g1, by simp [subsL, g2]⟩

theorem lookupK_sound (k : Nat) :
    ∀ ks : List Kw, ∀ c : Expr, lookupK k ks = some c →
      callIdOf c = some k ∧ TreeNode.exprN c ∈ subsK ks
  | [] => fun c h => by simp [lookupK] at h
  | .mk a v :: ks => fun c h => by
      simp only [lookupK] at h
      rcases orO_eq_some h with h1 | h1
      · obtain ⟨g1, g2⟩ := lookupE_sound k v c h1
        exact ⟨g1, by simp [subsK, g2]⟩
      · obtain ⟨g1, g2⟩ := lookupK_sound k ks c h1
        exact ⟨g1, by simp [subsK, g2]⟩
end

theorem lookupS_sound (k : Nat) (s : Stmt) (c : Expr) (h : lookupS k s = some c) :
    callIdOf c = some k ∧ TreeNode.exprN c ∈ subsS s := by
  cases s with
  | exprStmt l v =>
      obtain ⟨h1, h2⟩ := lookupE_sound k v c h
      exact ⟨h1, by simp [subsS, h2]⟩
  | assign l ts v =>
      simp only [lookupS] at h
      rcases orO_eq_some h with h1 | h1
      · obtain ⟨g1, g2⟩ := lookupL_sound k ts c h1
        exact ⟨g1, by simp [subsS, g2]⟩
      · obtain ⟨g1, g2⟩ := lookupE_sound k v c h1
        exact ⟨g1, by simp [subsS, g2]⟩

theorem lookupCall_sound (k : Nat) :
    ∀ stmts : List Stmt, ∀ c : Expr, lookupCall k stmts = some c →
      callIdOf c = some k ∧ TreeNode.exprN c ∈ subsStmts stmts
  | [] => fun c h => by simp [lookupCall] at h
  | s :: ss => fun c h => by
      simp only [lookupCall] at h
      rcases orO_eq_some h with h1 | h1
      · obtain ⟨g1, g2⟩ := lookupS_sound k s c h1
        exact ⟨g1, by simp [subsStmts, g2]⟩
      · obtain ⟨g1, g2⟩ := lookupCall_sound k ss c h1
        refine ⟨g1, ?_⟩
        simp only [subsStmts, List.map_cons, List.flatten_cons, List.mem_append]
        right
        simpa [subsStmts] using g2

theorem count_callFunc (k : Nat) :
    ∀ l : List Instr, l.count (Instr.callFunc k) = (callIdList l).count k := by
  intro l
  induction l with
  | nil => simp [callIdList]
  | cons a as ih =>
      cases a <;> simp [callIdList, List.count_cons, ih]

theorem split_unique {α : Type} {x : α} :
    ∀ (P P2 S S2 : List α), P ++ x :: S = P2 ++ x :: S2 → x ∉ P → x ∉ P2 →
      P = P2 ∧ S = S2 := by
  intro P
  induction P with
  | nil =>
      intro P2 S S2 heq _ hx2
      cases P2 with
      | nil => simp at heq; simp [heq]
      | cons y ys =>
          simp at heq
          exact absurd (by simp [heq.1]) hx2
  | cons p ps ih =>
      intro P2 S S2 heq hx hx2
      cases P2 with
      | nil =>
          simp at heq
          exact absurd (by simp [heq.1]) hx
      | cons y ys =>
          simp only [List.cons_append, List.cons.injEq] at heq
          have hx3 : x ∉ ps := fun hh => hx (List.mem_cons_of_mem p hh)
          have hx4 : x ∉ ys := fun hh => hx2 (List.mem_cons_of_mem y hh)
          obtain ⟨g1, g2⟩ := ih ys S S2 heq.2 hx3 hx4
          exact ⟨by simp [heq.1, g1], g2⟩

theorem take_left_of_append {α : Type} (A B : List α) : (A ++ B).take A.length = A := by
  have := take_append_len A B 0
  simpa using this

theorem countCalls_split_inj {l P S P2 S2 : List Instr} {k k2 : Nat}
    (h1 : l = P ++ Instr.callFunc k :: S) (h2 : l = P2 ++ Instr.callFunc k2 :: S2)
    (hcount : countCalls P = countCalls P2) : P = P2 ∧ k = k2 := by
  rcases Nat.lt_trichotomy P.length P2.length with hlt | heq | hgt
  · exfalso
    have hP2 : P2 = l.take P2.length := by
      rw [h2, take_left_of_append]
    have hd : P2.length = P.length + (P2.length - P.length) := by omega
    rw [h1] at hP2
    rw [hd, take_append_len] at hP2
    have hd2 : P2.length - P.length = (P2.length - P.length - 1) + 1 := by omega
    rw [hd2] at hP2
    simp only [List.take_succ_cons] at hP2
    rw [hP2] at hcount
    rw [countCalls_append, countCalls_cons_call] at hcount
    omega
  · have hP : P = l.take P.length := by rw [h1, take_left_of_append]
    have hP2 : P2 = l.take P2.length := by rw [h2, take_left_of_append]
    have hPP : P = P2 := by rw [hP, hP2, heq]
    refine ⟨hPP, ?_⟩
    rw [hPP] at h1
    rw [h1] at h2
    have := List.append_cancel_left h2
    injection this with hh htail
    injection hh
  · exfalso
    have hP : P = l.take P.length := by rw [h1, take_left_of_append]
    have hd : P.length = P2.length + (P.length - P2.length) := by omega
    rw [h2] at hP
    rw [hd, take_append_len] at hP
    have hd2 : P.length - P2.length = (P.length - P2.length - 1) + 1 := by omega
    rw [hd2] at hP
    simp only [List.take_succ_cons] at hP
    rw [hP] at hcount
    rw [countCalls_append, countCalls_cons_call] at hcount
    omega

theorem argval_ne_of_instrsClean {l : List Instr} (h : instrsClean l = true)
    {i : Instr} (hi : i ∈ l) : i.argvalStr ≠ some sentinel := by
  simp [instrsClean, List.all_eq_true] at h
  exact fun hc => h i hi (by simp [hc])

theorem argval_beq_false {l : List Instr} (h : instrsClean l = true) {i : Instr}
    (hi : i ∈ l) : (i.argvalStr == some sentinel) = false := by
  have := argval_ne_of_instrsClean h hi
  simp [this]

/-- The sentinel trial on a statement group with no duplicate call labels and
no sentinel-valued strings: tweaking the call labelled `k` makes the trial
return exactly the index, among the call instructions of the unmodified
compiled group, of that call's own call instruction. -/
theorem trial_eq (stmts : List Stmt) (k : Nat)
    (hn : (bodyCallIds stmts).Nodup) (hclean : bodyClean stmts = true)
    (hk : k ∈ bodyCallIds stmts) :
    ∃ P S, compileBody stmts = P ++ Instr.callFunc k :: S ∧
      trialStep (stmts.map (addSentinelS k)) = .ok (some (countCalls P)) := by
  obtain ⟨P, S, e1, e2⟩ := spliceBody k stmts hn hk
  refine ⟨P, S, e1, ?_⟩
  have hcleanI : instrsClean (compileBody stmts) = true :=
    instrsClean_compileBody stmts hclean
  have hP : ∀ a ∈ P, (a.argvalStr == some sentinel) = false := by
    intro a ha
    exact argval_beq_false hcleanI (by rw [e1]; exact List.mem_append_left _ ha)
  have hS : ∀ a ∈ S, (a.argvalStr == some sentinel) = false := by
    intro a ha
    refine argval_beq_false hcleanI ?_
    rw [e1]
    exact List.mem_append_right _ (List.mem_cons_of_mem _ ha)
  have hsandbox : sandboxInstructions (stmts.map (addSentinelS k)) =
      P ++ Instr.loadConstStr sentinel ::
        (Instr.callFunc k :: (S ++ [Instr.loadConstNone, Instr.returnValue])) := by
    simp [sandboxInstructions, e2]
  have hB : ∀ b ∈ Instr.callFunc k :: (S ++ [Instr.loadConstNone, Instr.returnValue]),
      (b.argvalStr == some sentinel) = false := by
    intro b hb
    rcases List.mem_cons.mp hb with h1 | h1
    · subst h1; rfl
    · rcases List.mem_append.mp h1 with h2 | h2
      · exact hS b h2
      · rcases List.mem_cons.mp h2 with h3 | h3
        · subst h3; rfl
        · simp only [List.mem_singleton] at h3
          subst h3; rfl
  have hidx : idxWhere (fun i => i.argvalStr == some sentinel)
      (sandboxInstructions (stmts.map (addSentinelS k))) = [P.length] := by
    rw [hsandbox]
    exact idxWhere_single _ _ _ _ hP (by rfl) hB
  have hdrop : (sandboxInstructions (stmts.map (addSentinelS k))).drop P.length =
      Instr.loadConstStr sentinel ::
        (Instr.callFunc k :: (S ++ [Instr.loadConstNone, Instr.returnValue])) := by
    rw [hsandbox]
    exact drop_append_len P _
  have htake : (sandboxInstructions (stmts.map (addSentinelS k))).take (P.length + 1) =
      P ++ [Instr.loadConstStr sentinel] := by
    rw [hsandbox, take_append_len]
    rfl
  simp only [trialStep, hidx, hdrop, htake]
  have hfind : findFirstIdx Instr.isCall
      (Instr.loadConstStr sentinel ::
        (Instr.callFunc k :: (S ++ [Instr.loadConstNone, Instr.returnValue]))) =
      some 1 := by
    simp [findFirstIdx, Instr.isCall]
  rw [hfind]
  have hcount : countCalls (P ++ [Instr.loadConstStr sentinel]) = countCalls P := by
    rw [countCalls_append]
    simp [countCalls, List.filter_cons, Instr.isCall]
  simp [htake, hcount]

theorem beq_false_of_ne {α : Type} [DecidableEq α] {a b : α} (h : ¬ a = b) :
    (a == b) = false := by
  simp [h]

theorem bodyClean_append (A B : List Stmt) :
    bodyClean (A ++ B) = (bodyClean A && bodyClean B) := by
  induction A with
  | nil => simp [bodyClean]
  | cons s ss ih => simp [bodyClean, ih, Bool.and_assoc]

theorem bodyCallIds_append (A B : List Stmt) :
    bodyCallIds (A ++ B) = bodyCallIds A ++ bodyCallIds B := by
  simp [bodyCallIds]

theorem set_append_length {α : Type} (A : List α) :
    ∀ (x : α) (B : List α) (y : α), (A ++ x :: B).set A.length y = A ++ y :: B := by
  induction A with
  | nil => intro x B y; simp
  | cons a as ih => intro x B y; simp [List.set_cons_succ, ih]

theorem filter_lineno (pre stmts post : List Stmt) (L : Nat)
    (hpre : ∀ s ∈ pre, s.lineno ≠ L)
    (hstmts : ∀ s ∈ stmts, s.lineno = L)
    (hpost : ∀ s ∈ post, s.lineno ≠ L) :
    (pre ++ stmts ++ post).filter (fun s => s.lineno == L) = stmts := by
  rw [List.filter_append, List.filter_append]
  have h1 : pre.filter (fun s => s.lineno == L) = [] := by
    rw [List.filter_eq_nil]
    intro s hs
    simp [hpre s hs]
  have h2 : post.filter (fun s => s.lineno == L) = [] := by
    rw [List.filter_eq_nil]
    intro s hs
    simp [hpost s hs]
  have h3 : stmts.filter (fun s => s.lineno == L) = stmts := by
    rw [List.filter_eq_self]
    intro s hs
    simp [hstmts s hs]
  rw [h1, h2, h3, List.append_nil]
  simp

/-- The index of the first occurrence of `k`. -/
def idxOfN (k : Nat) : List Nat → Nat
  | [] => 0
  | x :: xs => if x = k then 0 else idxOfN k xs + 1

theorem idxOfN_append (k : Nat) :
    ∀ (A B : List Nat), k ∉ A → idxOfN k (A ++ k :: B) = A.length := by
  intro A
  induction A with
  | nil => intro B _; simp [idxOfN]
  | cons a as ih =>
      intro B hk
      have ha : ¬ a = k := fun hh => hk (by simp [hh])
      simp only [List.cons_append, idxOfN, ha, if_false, List.length_cons,
        List.append_eq]
      rw [ih B (fun hh => hk (List.mem_cons_of_mem a hh))]

theorem idxOfN_inj (k1 k2 : Nat) :
    ∀ l : List Nat, k1 ∈ l → k2 ∈ l → idxOfN k1 l = idxOfN k2 l → k1 = k2 := by
  intro l
  induction l with
  | nil => intro h; simp at h
  | cons x xs ih =>
      intro h1 h2 heq
      by_cases e1 : x = k1
      · by_cases e2 : x = k2
        · rw [← e1, ← e2]
        · subst e1
          simp [idxOfN, e2] at heq
      · by_cases e2 : x = k2
        · subst e2
          simp [idxOfN, e1] at heq
        · simp only [idxOfN, e1, e2, if_false] at heq
          have h1a : k1 ∈ xs := by
            rcases List.mem_cons.mp h1 with hh | hh
            · exact absurd hh.symm e1
            · exact hh
          have h2a : k2 ∈ xs := by
            rcases List.mem_cons.mp h2 with hh | hh
            · exact absurd hh.symm e2
            · exact hh
          exact ih h1a h2a (by omega)

/-- The index of the call labelled `k` among the call instructions of a
stream. -/
def callIndexOf (l : List Instr) (k : Nat) : Nat :=
  idxOfN k (callIdList l)

theorem callIndexOf_eq {P S : List Instr} {k : Nat}
    (hP : Instr.callFunc k ∉ P) :
    callIndexOf (P ++ Instr.callFunc k :: S) k = countCalls P := by
  unfold callIndexOf
  rw [callIdList_append]
  have : callIdList (Instr.callFunc k :: S) = k :: callIdList S := by
    simp [callIdList]
  rw [this]
  have hkP : k ∉ callIdList P := fun hh => by
    induction P with
    | nil => simp [callIdList] at hh
    | cons a as ih =>
        cases a with
        | callFunc k2 =>
            simp only [callIdList, List.mem_cons] at hh
            rcases hh with h1 | h1
            · exact hP (by simp [h1])
            · exact ih (fun hm => hP (List.mem_cons_of_mem _ hm)) h1
        | _ =>
            simp only [callIdList] at hh
            first
            | exact ih (fun hm => hP (List.mem_cons_of_mem _ hm)) hh
  rw [idxOfN_append k _ _ hkP]
  exact length_callIdList P

theorem countCalls_cons (a : Instr) (l : List Instr) :
    countCalls (a :: l) = countCalls l + (if a.isCall then 1 else 0) := by
  cases h : a.isCall <;> simp [countCalls, List.filter_cons, h]

theorem filterCalls_length (A : List Instr) :
    ∀ n, (((withOffsetsFrom n A).filter fun oi => oi.instr.isCall)).length =
      countCalls A := by
  induction A with
  | nil => intro n; simp [withOffsetsFrom, countCalls]
  | cons a as ih =>
      intro n
      rw [countCalls_cons]
      cases hk : a.isCall
      · simp [withOffsetsFrom, List.filter_cons, hk, ih (n + 2)]
      · simp [withOffsetsFrom, List.filter_cons, hk, ih (n + 2)]

theorem callIdx_at_offset (A B : List Instr) (k : Nat) :
    only? (idxWhere (fun oi => oi.offset == (2 * A.length : Int))
      ((withOffsets (A ++ Instr.callFunc k :: B)).filter fun oi => oi.instr.isCall)) =
      .ok (countCalls A) := by
  unfold withOffsets
  rw [withOffsetsFrom_append]
  have hcons : withOffsetsFrom (0 + 2 * A.length) (Instr.callFunc k :: B) =
      ⟨0 + 2 * A.length, Instr.callFunc k⟩ :: withOffsetsFrom (0 + 2 * A.length + 2) B :=
    rfl
  rw [hcons, List.filter_append, List.filter_cons]
  have hcall : Instr.isCall (Instr.callFunc k) = true := rfl
  simp only [hcall, if_true]
  have hidx := idxWhere_single (fun oi => oi.offset == (2 * A.length : Int))
    ((withOffsetsFrom 0 A).filter fun oi => oi.instr.isCall)
    ((withOffsetsFrom (0 + 2 * A.length + 2) B).filter fun oi => oi.instr.isCall)
    ⟨0 + 2 * A.length, Instr.callFunc k⟩
    (by
      intro oi hoi
      have hmem := (List.mem_filter.mp hoi).1
      obtain ⟨hlo, hhi, _⟩ := mem_withOffsetsFrom A 0 oi hmem
      apply beq_false_of_ne
      intro hh
      rw [hh] at hhi
      omega)
    (by simp)
    (by
      intro oi hoi
      have hmem := (List.mem_filter.mp hoi).1
      obtain ⟨hlo, hhi, _⟩ := mem_withOffsetsFrom B (0 + 2 * A.length + 2) oi hmem
      apply beq_false_of_ne
      intro hh
      rw [hh] at hlo
      omega)
  simp only [List.cons_append] at hidx
  rw [hidx]
  rw [filterCalls_length A 0]
  rfl

/-- Value of `CallFinder.stmt_offset` on a body whose first statement at the queried
line is `sh`: the returned offset is the byte length of the instructions
compiled from the statements preceding `sh`. -/
theorem stmtOffset_eq (pre tail : List Stmt) (sh : Stmt) (L : Nat)
    (hpre : ∀ s ∈ pre, s.lineno ≠ L) (hsh : sh.lineno = L)
    (hcpre : bodyClean pre = true) (hctail : bodyClean tail = true) :
    stmtOffset (pre ++ sh :: tail) L = .ok ((2 * (compileBody pre).length : Nat) : Int) := by
  have hfind : (pre ++ sh :: tail).findIdx (fun s => s.lineno == L) = pre.length := by
    apply findIdx_append_single
    · intro s hs
      simp [hpre s hs]
    · simp [hsh]
  have hset : (pre ++ sh :: tail).set pre.length markerStmt =
      pre ++ markerStmt :: tail := set_append_length pre sh tail markerStmt
  have hmarker : compileStmt markerStmt =
      [Instr.loadConstStr sentinel, Instr.buildList 1, Instr.popTop] := rfl
  have hblock : blockInstructions (pre ++ markerStmt :: tail) =
      compileBody pre ++ Instr.loadConstStr sentinel ::
        (Instr.buildList 1 :: Instr.popTop ::
          (compileBody tail ++ [Instr.loadConstNone, Instr.returnValue])) := by
    unfold blockInstructions
    rw [compileBody_append]
    have : compileBody (markerStmt :: tail) =
        compileStmt markerStmt ++ compileBody tail := by
      simp [compileBody]
    rw [this, hmarker]
    simp
  simp only [stmtOffset]
  rw [hfind, hset, hblock]
  have hrest : ∀ b ∈ Instr.buildList 1 :: Instr.popTop ::
      (compileBody tail ++ [Instr.loadConstNone, Instr.returnValue]),
      (b.argvalStr == some sentinel) = false := by
    intro b hb
    rcases List.mem_cons.mp hb with h1 | h1
    · subst h1; rfl
    rcases List.mem_cons.mp h1 with h2 | h2
    · subst h2; rfl
    rcases List.mem_append.mp h2 with h3 | h3
    · exact argval_beq_false (instrsClean_compileBody tail hctail) h3
    · rcases List.mem_cons.mp h3 with h4 | h4
      · subst h4; rfl
      · simp only [List.mem_singleton] at h4
        subst h4; rfl
  have hfilter : (withOffsets (compileBody pre ++ Instr.loadConstStr sentinel ::
      (Instr.buildList 1 :: Instr.popTop ::
        (compileBody tail ++ [Instr.loadConstNone, Instr.returnValue])))).filter
      (fun oi => oi.instr.argvalStr == some sentinel) =
      [⟨(0 + 2 * (compileBody pre).length : Int), Instr.loadConstStr sentinel⟩] := by
    unfold withOffsets
    rw [withOffsetsFrom_append]
    have hcons : withOffsetsFrom (0 + 2 * (compileBody pre).length)
        (Instr.loadConstStr sentinel ::
          (Instr.buildList 1 :: Instr.popTop ::
            (compileBody tail ++ [Instr.loadConstNone, Instr.returnValue]))) =
        ⟨0 + 2 * (compileBody pre).length, Instr.loadConstStr sentinel⟩ ::
          withOffsetsFrom (0 + 2 * (compileBody pre).length + 2)
            (Instr.buildList 1 :: Instr.popTop ::
              (compileBody tail ++ [Instr.loadConstNone, Instr.returnValue])) := rfl
    rw [hcons, List.filter_append, List.filter_cons]
    have h1 : (withOffsetsFrom 0 (compileBody pre)).filter
        (fun oi => oi.instr.argvalStr == some sentinel) = [] := by
      rw [List.filter_eq_nil]
      intro oi hoi
      obtain ⟨_, _, hmem⟩ := mem_withOffsetsFrom (compileBody pre) 0 oi hoi
      simp [argval_beq_false (instrsClean_compileBody pre hcpre) hmem]
    have h2 : (withOffsetsFrom (0 + 2 * (compileBody pre).length + 2)
        (Instr.buildList 1 :: Instr.popTop ::
          (compileBody tail ++ [Instr.loadConstNone, Instr.returnValue]))).filter
        (fun oi => oi.instr.argvalStr == some sentinel) = [] := by
      rw [List.filter_eq_nil]
      intro oi hoi
      obtain ⟨_, _, hmem⟩ := mem_withOffsetsFrom _ _ oi hoi
      simp [hrest oi.instr hmem]
    rw [h1, h2]
    simp [Instr.argvalStr]
  rw [hfilter]
  simp [only?]

theorem addSentinelS_lineno (k : Nat) (s : Stmt) :
    (addSentinelS k s).lineno = s.lineno := by
  cases s <;> rfl

theorem tweakAdd_filter {c : Expr} {k : Nat} (hc : callIdOf c = some k)
    (body : List Stmt) (L : Nat) :
    (tweakAdd c body).filter (fun s => s.lineno == L) =
      (body.filter fun s => s.lineno == L).map (addSentinelS k) := by
  cases c <;> simp [callIdOf] at hc
  case call cid f args kws =>
    subst hc
    simp only [tweakAdd]
    rw [List.filter_map]
    have : (fun s => s.lineno == L) ∘ addSentinelS cid = fun s => s.lineno == L := by
      funext s
      simp [addSentinelS_lineno]
    rw [this]

/-- Does this candidate's call instruction sit at the target index among the
call instructions of the unmodified compiled statement group? -/
def matchesTarget (stmts : List Stmt) (target : Nat) (c : Expr) : Bool :=
  match callIdOf c with
  | some k => callIndexOf (compileBody stmts) k == target
  | none => false

theorem find?_eq_some_of_unique {α : Type} (p : α → Bool) (c : α) :
    ∀ l : List α, c ∈ l → (∀ x ∈ l, (p x = true ↔ x = c)) →
      l.find? p = some c := by
  intro l
  induction l with
  | nil => intro hc; simp at hc
  | cons x xs ih =>
      intro hc hp
      by_cases hx : p x = true
      · have hxc : x = c := (hp x (List.mem_cons_self x xs)).mp hx
        rw [List.find?_cons_of_pos _ hx, hxc]
      · have hxc : x ≠ c := fun hh =>
          hx ((hp x (List.mem_cons_self x xs)).mpr hh)
        have hcx : c ∈ xs := by
          rcases List.mem_cons.mp hc with h1 | h1
          · exact absurd h1.symm hxc
          · exact h1
        rw [List.find?_cons_of_neg _ hx]
        exact ih hcx (fun y hy => hp y (List.mem_cons_of_mem x hy))

theorem not_mem_split_of_nodup {stmts : List Stmt} {P S : List Instr} {k : Nat}
    (hn : (bodyCallIds stmts).Nodup)
    (e1 : compileBody stmts = P ++ Instr.callFunc k :: S) :
    Instr.callFunc k ∉ P ∧ Instr.callFunc k ∉ S := by
  have hcnt : (compileBody stmts).count (Instr.callFunc k) ≤ 1 := by
    rw [count_callFunc, callIdList_compileBody]
    exact List.nodup_iff_count_le_one.mp hn k
  rw [e1, List.count_append, List.count_cons] at hcnt
  simp at hcnt
  constructor
  · apply List.count_eq_zero.mp
    omega
  · apply List.count_eq_zero.mp
    omega

/-- The candidate loop equals a `find?` over the candidates: each trial
computes the candidate's own baseline call-instruction index, and the loop
stops at the first candidate whose index equals the target.  The enclosing
body is restored after every trial. -/
theorem findLoop_eq (body stmts : List Stmt) (L target : Nat)
    (hfil : body.filter (fun s => s.lineno == L) = stmts)
    (hn : (bodyCallIds stmts).Nodup)
    (hclean : bodyClean stmts = true)
    (hvalid : bodyTargetsValid stmts = true) :
    ∀ cands : List Expr, (∀ x ∈ cands, x ∈ walkCalls stmts) →
      findLoop L target cands body =
        (.ok (cands.find? (matchesTarget stmts target)), body) := by
  intro cands
  induction cands with
  | nil => intro _; simp [findLoop]
  | cons c rest ih =>
      intro hsub
      have hcw : c ∈ walkCalls stmts := hsub c (List.mem_cons_self c rest)
      obtain ⟨⟨cid, f, args, kws, hshape⟩, hmem⟩ := mem_walkCalls.mp hcw
      have hid : callIdOf c = some cid := by rw [hshape]; rfl
      have hk : cid ∈ bodyCallIds stmts := by
        apply mem_bodyCallIds_of_node hvalid
        rw [← hshape]
        exact hmem
      obtain ⟨P, S, e1, etrial⟩ := trial_eq stmts cid hn hclean hk
      have hPn : Instr.callFunc cid ∉ P := (not_mem_split_of_nodup hn e1).1
      have hidx : callIndexOf (compileBody stmts) cid = countCalls P := by
        rw [e1, callIndexOf_eq hPn]
      simp only [findLoop, tweakRun]
      rw [tweakAdd_filter hid body L, hfil, etrial]
      by_cases he : countCalls P = target
      · have hm : matchesTarget stmts target c = true := by
          simp [matchesTarget, hid, hidx, he]
        rw [List.find?_cons_of_pos _ hm]
        simp [he]
      · simp only [if_neg he]
        have hm : ¬ matchesTarget stmts target c = true := by
          simp [matchesTarget, hid, hidx]
          exact he
        rw [List.find?_cons_of_neg _ hm]
        exact ih (fun x hx => hsub x (List.mem_cons_of_mem c hx))

theorem callFunc_not_mem_compileBody {body : List Stmt} {k : Nat}
    (h : k ∉ bodyCallIds body) : Instr.callFunc k ∉ compileBody body :=
  fun hm => h (callIdList_compileBody body ▸ mem_callIdList_of_callFunc _ k hm)

/-- Behaviour of `get_call_instruction_index` for a frame executing the call labelled `k`
inside the statement group of the queried line: the raw frame offset (the
byte position of that call instruction in the enclosing block's code) minus
the measured statement offset picks out, in the compiled sandbox, exactly
the index of that call among the group's call instructions. -/
theorem getCallInstructionIndex_eq
    (pre stmts post : List Stmt) (L k : Nat) (nm : String)
    (P S : List Instr) (sh : Stmt) (st : List Stmt)
    (hpre : ∀ s ∈ pre, s.lineno ≠ L)
    (hsh : stmts = sh :: st) (hshL : sh.lineno = L)
    (hcpre : bodyClean pre = true) (hcstmts : bodyClean stmts = true)
    (hcpost : bodyClean post = true)
    (hsplit : compileBody stmts = P ++ Instr.callFunc k :: S)
    (hkpre : Instr.callFunc k ∉ compileBody pre)
    (hkP : Instr.callFunc k ∉ P)
    (hnm : specialCodeNames.contains nm = false) :
    getCallInstructionIndex (pre ++ stmts ++ post) stmts
      ⟨nm, L, 2 * ((compileBody (pre ++ stmts ++ post)).findIdx
        (fun i => i == Instr.callFunc k) : Int)⟩
      = .ok (countCalls P) := by
  have hbodyinstr : compileBody (pre ++ stmts ++ post) =
      (compileBody pre ++ P) ++ Instr.callFunc k ::
        (S ++ compileBody post) := by
    rw [compileBody_append, compileBody_append, hsplit]
    simp
  have hfind : (compileBody (pre ++ stmts ++ post)).findIdx
      (fun i => i == Instr.callFunc k) =
      (compileBody pre).length + P.length := by
    rw [hbodyinstr]
    have := findIdx_append_single (fun i => i == Instr.callFunc k)
      (compileBody pre ++ P) (S ++ compileBody post) (Instr.callFunc k)
      (by
        intro a ha
        apply beq_false_of_ne
        intro hh
        subst hh
        rcases List.mem_append.mp ha with h1 | h1
        · exact hkpre h1
        · exact hkP h1)
      (by simp)
    rw [this]
    simp
  have hoff : stmtOffset (pre ++ stmts ++ post) L =
      .ok ((2 * (compileBody pre).length : Nat) : Int) := by
    have hb : pre ++ stmts ++ post = pre ++ sh :: (st ++ post) := by
      rw [hsh]
      simp
    rw [hb]
    apply stmtOffset_eq pre (st ++ post) sh L hpre hshL hcpre
    rw [bodyClean_append]
    rw [hsh] at hcstmts
    simp only [bodyClean, Bool.and_eq_true] at hcstmts
    simp [hcstmts.2, hcpost]
  simp only [getCallInstructionIndex, frameOffsetRelativeToStmt, hnm,
    Bool.false_eq_true, if_false, hoff, hfind]
  have harith : (2 * (((compileBody pre).length + P.length : Nat) : Int) -
      ((2 * (compileBody pre).length : Nat) : Int)) = (2 * P.length : Int) := by
    push_cast
    ring
  rw [harith]
  have hsandbox : sandboxInstructions stmts =
      P ++ Instr.callFunc k :: (S ++ [Instr.loadConstNone, Instr.returnValue]) := by
    simp [sandboxInstructions, hsplit]
  rw [hsandbox]
  exact callIdx_at_offset P (S ++ [Instr.loadConstNone, Instr.returnValue]) k

/-- C1.  Round-trip resolution: in a body of single-line statements (with
distinct call labels, no sentinel-valued strings, and legal assignment
targets), executing any call expression `c` of the statements at line `L` —
so that the frame's `f_lasti` is the byte offset of `c`'s own call
instruction in the enclosing block's code and `f_lineno` is `L` — and
resolving that execution position returns exactly `c`, the innermost call
being executed, and restores the body. -/
theorem c1_round_trip
    (pre stmts post body : List Stmt) (L k : Nat) (c : Expr) (nm : String)
    (hbody : body = pre ++ stmts ++ post)
    (hpre : ∀ s ∈ pre, s.lineno ≠ L)
    (hstmts : ∀ s ∈ stmts, s.lineno = L)
    (hpost : ∀ s ∈ post, s.lineno ≠ L)
    (hne : stmts ≠ [])
    (hn : (bodyCallIds body).Nodup)
    (hclean : bodyClean body = true)
    (hvalid : bodyTargetsValid stmts = true)
    (hc : lookupCall k stmts = some c)
    (hnm : specialCodeNames.contains nm = false) :
    callAt body ⟨nm, L, 2 * ((compileBody body).findIdx
      (fun i => i == Instr.callFunc k) : Int)⟩ = (.ok c, body) := by
  subst hbody
  have hids : bodyCallIds (pre ++ stmts ++ post) =
      (bodyCallIds pre ++ bodyCallIds stmts) ++ bodyCallIds post := by
    rw [bodyCallIds_append, bodyCallIds_append]
  rw [hids] at hn
  have hnL := (nodup_parts hn).1
  have hnstmts : (bodyCallIds stmts).Nodup := (nodup_parts hnL).2.1
  have hkpre_ids : ∀ k2, k2 ∈ bodyCallIds stmts → k2 ∉ bodyCallIds pre :=
    fun k2 hk2 => not_mem_left_of_nodup hnL hk2
  have hcl : bodyClean (pre ++ stmts ++ post) =
      ((bodyClean pre && bodyClean stmts) && bodyClean post) := by
    rw [bodyClean_append, bodyClean_append]
  rw [hcl] at hclean
  simp only [Bool.and_eq_true] at hclean
  have hcpre : bodyClean pre = true := hclean.1.1
  have hcstmts : bodyClean stmts = true := hclean.1.2
  have hcpost : bodyClean post = true := hclean.2
  obtain ⟨hcid, hcmem⟩ := lookupCall_sound k stmts c hc
  obtain ⟨f, args, kws, hshape⟩ : ∃ f args kws, c = Expr.call k f args kws := by
    cases c <;> simp [callIdOf] at hcid
    case call cid f2 args2 kws2 =>
      exact ⟨f2, args2, kws2, by rw [hcid]⟩
  have hkmem : k ∈ bodyCallIds stmts := by
    apply mem_bodyCallIds_of_node hvalid
    rw [← hshape]
    exact hcmem
  obtain ⟨P, S, e1, etrial⟩ := trial_eq stmts k hnstmts hcstmts hkmem
  obtain ⟨hkP, hkS⟩ := not_mem_split_of_nodup hnstmts e1
  have hkpreI : Instr.callFunc k ∉ compileBody pre :=
    callFunc_not_mem_compileBody (hkpre_ids k hkmem)
  obtain ⟨sh, st, hsh⟩ : ∃ sh st, stmts = sh :: st := by
    cases stmts with
    | nil => exact absurd rfl hne
    | cons a b => exact ⟨a, b, rfl⟩
  have hshL : sh.lineno = L := hstmts sh (by rw [hsh]; exact List.mem_cons_self _ _)
  have htarget := getCallInstructionIndex_eq pre stmts post L k nm P S sh st
    hpre hsh hshL hcpre hcstmts hcpost e1 hkpreI hkP hnm
  have hfil : (pre ++ stmts ++ post).filter (fun s => s.lineno == L) = stmts :=
    filter_lineno pre stmts post L hpre hstmts hpost
  have hkidx : callIndexOf (compileBody stmts) k = countCalls P := by
    rw [e1, callIndexOf_eq hkP]
  have hfound : (walkCalls stmts).find? (matchesTarget stmts (countCalls P)) =
      some c := by
    apply find?_eq_some_of_unique
    · exact mem_walkCalls.mpr ⟨⟨k, f, args, kws, hshape⟩, hcmem⟩
    · intro x hx
      obtain ⟨⟨kx, fx, ax, kwx, hxs⟩, hxm⟩ := mem_walkCalls.mp hx
      have hxid : callIdOf x = some kx := by rw [hxs]; rfl
      constructor
      · intro hmt
        simp only [matchesTarget, hxid, beq_iff_eq] at hmt
        have hkxmem : kx ∈ bodyCallIds stmts := by
          apply mem_bodyCallIds_of_node hvalid
          rw [← hxs]
          exact hxm
        have hkk : kx = k := by
          apply idxOfN_inj kx k (callIdList (compileBody stmts))
          · rw [callIdList_compileBody]
            exact hkxmem
          · rw [callIdList_compileBody]
            exact hkmem
          · unfold callIndexOf at hmt hkidx
            rw [hmt, hkidx]
        exact uniq_call_node (k := k) hvalid hnstmts hxm hcmem
          (by rw [hxid, hkk]) hcid
      · intro hxc
        subst hxc
        simp only [matchesTarget, hcid, beq_iff_eq]
        exact hkidx
  have hloop := findLoop_eq (pre ++ stmts ++ post) stmts L (countCalls P)
    hfil hnstmts hcstmts hvalid (walkCalls stmts) (fun x hx => hx)
  rw [hfound] at hloop
  have hempty : stmts.isEmpty = false := by rw [hsh]; rfl
  simp only [callAt, hfil, hempty, Bool.false_eq_true, if_false, htarget, hloop]

/-- Witness for C1: in `g(f())` on line 1, the position captured while `f()`
executes (the offset of `f`'s call instruction) resolves to the inner call
`f()`, not the enclosing `g(...)`. -/
theorem c1_round_trip_witness :
    callAt [Stmt.exprStmt 1 (.call 0 (.name "g") [.call 1 (.name "f") [] []] [])]
      ⟨"<module>", 1,
        2 * ((compileBody [Stmt.exprStmt 1
          (.call 0 (.name "g") [.call 1 (.name "f") [] []] [])]).findIdx
          (fun i => i == Instr.callFunc 1) : Int)⟩ =
      (.ok (.call 1 (.name "f") [] []),
        [Stmt.exprStmt 1 (.call 0 (.name "g") [.call 1 (.name "f") [] []] [])]) :=
  c1_round_trip []
    [Stmt.exprStmt 1 (.call 0 (.name "g") [.call 1 (.name "f") [] []] [])] []
    [Stmt.exprStmt 1 (.call 0 (.name "g") [.call 1 (.name "f") [] []] [])]
    1 1 (.call 1 (.name "f") [] []) "<module>"
    (by simp) (by simp) (by decide) (by simp) (by simp) (by decide) (by decide)
    (by decide) rfl (by decide)

/-- C2.  The sentinel-marker differential matching algorithm: the candidate
list is the breadth-first (`ast.walk`) traversal of the queried statements,
which contains exactly the call expressions nested anywhere inside them;
and the candidate loop — per-candidate marker attachment, recompilation,
sentinel location, nearest following call instruction, index among the
modified unit's call instructions — returns precisely the first candidate
in that order whose index equals the target call-instruction index. -/
theorem c2_sentinel_matching (body stmts : List Stmt) (L target : Nat)
    (hfil : body.filter (fun s => s.lineno == L) = stmts)
    (hn : (bodyCallIds stmts).Nodup)
    (hclean : bodyClean stmts = true)
    (hvalid : bodyTargetsValid stmts = true) :
    findLoop L target (walkCalls stmts) body =
      (.ok ((walkCalls stmts).find? (matchesTarget stmts target)), body) ∧
    (∀ c : Expr, c ∈ walkCalls stmts ↔
      (∃ cid f args kws, c = Expr.call cid f args kws) ∧
        TreeNode.exprN c ∈ subsStmts stmts) :=
  ⟨findLoop_eq body stmts L target hfil hn hclean hvalid (walkCalls stmts)
      (fun _ hx => hx),
    fun _ => mem_walkCalls⟩

/-- Witness for C2 on the statement `g(f())`. -/
theorem c2_sentinel_matching_witness :
    findLoop 1 0
      (walkCalls [Stmt.exprStmt 1 (.call 0 (.name "g") [.call 1 (.name "f") [] []] [])])
      [Stmt.exprStmt 1 (.call 0 (.name "g") [.call 1 (.name "f") [] []] [])] =
      (.ok ((walkCalls [Stmt.exprStmt 1
          (.call 0 (.name "g") [.call 1 (.name "f") [] []] [])]).find?
        (matchesTarget [Stmt.exprStmt 1
          (.call 0 (.name "g") [.call 1 (.name "f") [] []] [])] 0)),
        [Stmt.exprStmt 1 (.call 0 (.name "g") [.call 1 (.name "f") [] []] [])]) ∧
    (∀ c : Expr, c ∈ walkCalls [Stmt.exprStmt 1
        (.call 0 (.name "g") [.call 1 (.name "f") [] []] [])] ↔
      (∃ cid f args kws, c = Expr.call cid f args kws) ∧
        TreeNode.exprN c ∈ subsStmts [Stmt.exprStmt 1
          (.call 0 (.name "g") [.call 1 (.name "f") [] []] [])]) :=
  c2_sentinel_matching
    [Stmt.exprStmt 1 (.call 0 (.name "g") [.call 1 (.name "f") [] []] [])]
    [Stmt.exprStmt 1 (.call 0 (.name "g") [.call 1 (.name "f") [] []] [])]
    1 0 rfl (by decide) (by decide) (by decide)

/-- Counterexample for C3: two statements joined on one source line
(`f(); g()`, as exercised by the repository's `test_semicolons`) are not
rejected: each call resolves successfully — the first call from its own
instruction offset, and the second likewise — instead of failing with the
claimed error. -/
theorem c3_counterexample :
    (callAt [Stmt.exprStmt 1 (.call 0 (.name "f") [] []),
        Stmt.exprStmt 1 (.call 1 (.name "g") [] [])] ⟨"<module>", 1, 2⟩).1 =
      .ok (.call 0 (.name "f") [] []) ∧
    (callAt [Stmt.exprStmt 1 (.call 0 (.name "f") [] []),
        Stmt.exprStmt 1 (.call 1 (.name "g") [] [])] ⟨"<module>", 1, 8⟩).1 =
      .ok (.call 1 (.name "g") [] []) := by
  constructor
  · rfl
  · rfl

/-- Does the sentinel trial for this candidate produce exactly the target
index (the loop's stopping condition)? -/
def trialHit (body : List Stmt) (L target : Nat) (c : Expr) : Bool :=
  match trialStep ((tweakAdd c body).filter fun s => s.lineno == L) with
  | .ok (some i) => i == target
  | _ => false

theorem findLoop_none_of_no_hit (body : List Stmt) (L target : Nat) :
    ∀ cands : List Expr,
      (∀ c ∈ cands, trialHit body L target c = false) →
      (findLoop L target cands body).1 = .ok none ∨
        ∃ e, (findLoop L target cands body).1 = .error e := by
  intro cands
  induction cands with
  | nil => intro _; left; rfl
  | cons c rest ih =>
      intro h
      have hc := h c (List.mem_cons_self c rest)
      simp only [findLoop, tweakRun]
      cases htr : trialStep ((tweakAdd c body).filter fun s => s.lineno == L) with
      | error e => right; exact ⟨e, rfl⟩
      | ok r =>
          cases r with
          | none => exact ih (fun x hx => h x (List.mem_cons_of_mem c hx))
          | some i =>
              have hne : ¬ i = target := by
                simp only [trialHit, htr] at hc
                simpa using hc
              simp only [if_neg hne]
              exact ih (fun x hx => h x (List.mem_cons_of_mem c hx))

/-- C3 (amended).  Matcher failure modes: (1) when the queried position cannot
be aligned with a unique call instruction of the baseline compilation (the
`only` in `get_call_instruction_index` raises, because the adjusted frame
offset sits at zero or several call instructions), resolution fails with
exactly that exception; and (2) when the alignment succeeds but no candidate
call expression's sentinel trial matches the resulting target index, the
matcher fails with an error (the unset `self.result` raising on access, or
an exception from a trial).  Multiple statements joined on one source line
in the same body are, however, supported (see the counterexample). -/
theorem c3_amended_failure (body : List Stmt) (fr : Fr) :
    (∀ e, (body.filter fun s => s.lineno == fr.lineno).isEmpty = false →
      getCallInstructionIndex body
        (body.filter fun s => s.lineno == fr.lineno) fr = .error e →
      (callAt body fr).1 = .error e) ∧
    (∀ target, getCallInstructionIndex body
        (body.filter fun s => s.lineno == fr.lineno) fr = .ok target →
      (∀ c ∈ walkCalls (body.filter fun s => s.lineno == fr.lineno),
        trialHit body fr.lineno target c = false) →
      ∃ e, (callAt body fr).1 = .error e) := by
  constructor
  · intro e hne he
    simp only [callAt, hne, Bool.false_eq_true, if_false, he]
  · intro target ht h
    by_cases hempty : ((body.filter fun s => s.lineno == fr.lineno)).isEmpty
    · exact ⟨.indexError, by simp [callAt, hempty]⟩
    · have hloop := findLoop_none_of_no_hit body fr.lineno target
        (walkCalls (body.filter fun s => s.lineno == fr.lineno)) h
      simp only [callAt, hempty, Bool.false_eq_true, if_false, ht]
      rcases hpair : findLoop fr.lineno target
        (walkCalls (body.filter fun s => s.lineno == fr.lineno)) body with ⟨r, b2⟩
      rw [hpair] at hloop
      rcases hloop with h1 | ⟨e, h1⟩
      · simp at h1
        subst h1
        exact ⟨Err.attributeError, rfl⟩
      · simp at h1
        subst h1
        exact ⟨e, rfl⟩

/-- Witness for the amended C3, one concrete instance per failure mode.
Alignment failure: for the line `f()` a frame offset of 0 points at the
`LOAD_NAME` instruction, not a call, so `only` over the matching call
instructions raises and resolution fails with that exception.  No-match
failure: a source whose call already carries the sentinel string as an
argument (`f(sentinel)`) makes every trial see two sentinel loads, so
`only(indices)` raises in each trial and resolution fails. -/
theorem c3_amended_failure_witness :
    (callAt [Stmt.exprStmt 1 (.call 0 (.name "f") [] [])]
      ⟨"<module>", 1, 0⟩).1 = .error .expectedOneObject ∧
    (∃ e, (callAt [Stmt.exprStmt 1 (.call 0 (.name "f") [.strLit sentinel] [])]
      ⟨"<module>", 1, 4⟩).1 = .error e) :=
  ⟨(c3_amended_failure [Stmt.exprStmt 1 (.call 0 (.name "f") [] [])]
      ⟨"<module>", 1, 0⟩).1 .expectedOneObject (by decide) rfl,
   (c3_amended_failure [Stmt.exprStmt 1 (.call 0 (.name "f") [.strLit sentinel] [])]
      ⟨"<module>", 1, 4⟩).2 0 rfl (by decide)⟩

/-- C6.  Offset correction for non-first statements: with at least one
statement preceding the queried line in the enclosing body, the secondary
sentinel pass measures exactly the instruction offset contributed by the
preceding statements (two bytes per instruction), and the matcher subtracts
it from the raw frame offset before computing the target call-instruction
index. -/
theorem c6_stmt_offset (pre tail : List Stmt) (sh : Stmt) (L : Nat) (fr : Fr)
    (hprene : pre ≠ [])
    (hpre : ∀ s ∈ pre, s.lineno ≠ L) (hsh : sh.lineno = L)
    (hcpre : bodyClean pre = true) (hctail : bodyClean tail = true)
    (hfrL : fr.lineno = L)
    (hnm : specialCodeNames.contains fr.codeName = false) :
    stmtOffset (pre ++ sh :: tail) L =
      .ok ((2 * (compileBody pre).length : Nat) : Int) ∧
    frameOffsetRelativeToStmt (pre ++ sh :: tail) fr =
      .ok (fr.lasti - ((2 * (compileBody pre).length : Nat) : Int)) := by
  have h1 := stmtOffset_eq pre tail sh L hpre hsh hcpre hctail
  refine ⟨h1, ?_⟩
  simp only [frameOffsetRelativeToStmt, hnm, Bool.false_eq_true, if_false,
    hfrL, h1]

/-- Witness for C6: a call on line 2 preceded by a statement on line 1. -/
theorem c6_stmt_offset_witness :
    stmtOffset ([Stmt.exprStmt 1 (.call 0 (.name "a") [] [])] ++
        Stmt.exprStmt 2 (.call 1 (.name "b") [] []) :: []) 2 =
      .ok ((2 * (compileBody [Stmt.exprStmt 1 (.call 0 (.name "a") [] [])]).length
        : Nat) : Int) ∧
    frameOffsetRelativeToStmt ([Stmt.exprStmt 1 (.call 0 (.name "a") [] [])] ++
        Stmt.exprStmt 2 (.call 1 (.name "b") [] []) :: []) ⟨"<module>", 2, 8⟩ =
      .ok ((8 : Int) -
        ((2 * (compileBody [Stmt.exprStmt 1 (.call 0 (.name "a") [] [])]).length
          : Nat) : Int)) :=
  c6_stmt_offset [Stmt.exprStmt 1 (.call 0 (.name "a") [] [])] []
    (Stmt.exprStmt 2 (.call 1 (.name "b") [] [])) 2 ⟨"<module>", 2, 8⟩
    (by simp) (by decide) (by decide) (by decide) (by decide) (by decide)
    (by decide)

theorem findLoop_restores (L target : Nat) :
    ∀ (cands : List Expr) (body : List Stmt),
      (findLoop L target cands body).2 = body := by
  intro cands
  induction cands with
  | nil => intro body; rfl
  | cons c rest ih =>
      intro body
      simp only [findLoop, tweakRun]
      cases trialStep ((tweakAdd c body).filter fun s => s.lineno == L) with
      | error e => rfl
      | ok r =>
          cases r with
          | none => exact ih body
          | some i =>
              by_cases he : i = target
              · simp [he]
              · simp only [if_neg he]
                exact ih body

theorem callAt_post_state (p : Except Err (Option Expr) × List Stmt) :
    (match p with
      | (.ok none, b) => ((.error Err.attributeError : Except Err Expr), b)
      | (.ok (some c), b) => (.ok c, b)
      | (.error e, b) => (.error e, b)).2 = p.2 := by
  rcases p with ⟨r, b⟩
  cases r with
  | error e => rfl
  | ok ro => cases ro <;> rfl

/-- C8.  Atomicity of the temporary marker mutation: whatever the outcome of
the resolution — success, no match, or an exception partway through a trial
— the enclosing body (and hence the statement group) is returned in its
exact original form: every per-candidate mutation is scoped by `tweak_list`,
which restores the list in a `finally` clause. -/
theorem c8_tweak_atomicity (body : List Stmt) (fr : Fr) :
    (callAt body fr).2 = body := by
  simp only [callAt]
  by_cases hempty : ((body.filter fun s => s.lineno == fr.lineno)).isEmpty
  · simp [hempty]
  · simp only [hempty, Bool.false_eq_true, if_false]
    rcases hg : getCallInstructionIndex body
      (body.filter fun s => s.lineno == fr.lineno) fr with e | target
    · rfl
    · exact (callAt_post_state _).trans
        (findLoop_restores fr.lineno target
          (walkCalls (body.filter fun s => s.lineno == fr.lineno)) body)

/-- C9.  For a frame whose code object is one of the special anonymous
blocks (list/dict/set comprehension, lambda, generator expression), the raw
frame instruction offset is used directly as the offset relative to the
statement: the `stmt_offset` subtraction is skipped, whatever the enclosing
body contains. -/
theorem c9_special_frames_raw_offset (body : List Stmt) (fr : Fr)
    (hnm : specialCodeNames.contains fr.codeName = true) :
    frameOffsetRelativeToStmt body fr = .ok fr.lasti := by
  unfold frameOffsetRelativeToStmt
  rw [hnm]
  rfl

/-- Witness for C9: a `<listcomp>` frame. -/
theorem c9_special_frames_raw_offset_witness :
    frameOffsetRelativeToStmt [Stmt.exprStmt 1 (.call 0 (.name "a") [] [])]
      ⟨"<listcomp>", 1, 6⟩ = .ok 6 :=
  c9_special_frames_raw_offset
    [Stmt.exprStmt 1 (.call 0 (.name "a") [] [])] ⟨"<listcomp>", 1, 6⟩
    (by decide)

/-- C4.  The assignment-target resolver's walk: a plain assignment binding
two names is accepted whatever the flags; a `for`-loop (or comprehension)
target is considered only when loop forms are allowed and is otherwise
skipped; an assignment binding a single name is accepted only when
`allow_one` is set and is otherwise skipped; and a chain with no acceptable
binding construct fails with `TypeError('No assignment found')`. -/
theorem c4_resolve_target_walk :
    (∀ (rest : List ANode) (a l : Bool) (x y : String),
      assigned_names a l (ANode.assignN [.tupleE [.name x, .name y]] :: rest) =
        .ok ([x, y], ANode.assignN [.tupleE [.name x, .name y]])) ∧
    (∀ (rest : List ANode) (a : Bool) (x y : String),
      assigned_names a true (ANode.forN (.tupleE [.name x, .name y]) :: rest) =
        .ok ([x, y], ANode.forN (.tupleE [.name x, .name y]))) ∧
    (∀ (rest : List ANode) (a : Bool) (t : Expr),
      assigned_names a false (ANode.forN t :: rest) =
        assigned_names a false rest) ∧
    (∀ (rest : List ANode) (l : Bool) (x : String),
      assigned_names true l (ANode.assignN [.name x] :: rest) =
        .ok ([x], ANode.assignN [.name x])) ∧
    (∀ (rest : List ANode) (l : Bool) (x : String),
      assigned_names false l (ANode.assignN [.name x] :: rest) =
        assigned_names false l rest) ∧
    (∀ (chain : List ANode) (a l : Bool),
      (∀ n ∈ chain, n = ANode.otherN) →
      assigned_names a l chain = .error .noAssignmentFound) := by
  refine ⟨?_, ?_, ?_, ?_, ?_, ?_⟩
  · intro rest a l x y
    simp [assigned_names, node_names, namesOfElts, node_name]
  · intro rest a x y
    simp [assigned_names, node_names, namesOfElts, node_name]
  · intro rest a t
    simp [assigned_names]
  · intro rest l x
    simp [assigned_names, node_names, node_name]
  · intro rest l x
    simp [assigned_names, node_names, node_name]
  · intro chain
    induction chain with
    | nil => intro a l _; rfl
    | cons n rest ih =>
        intro a l h
        have hn : n = ANode.otherN := h n (List.mem_cons_self n rest)
        subst hn
        simp only [assigned_names]
        exact ih a l (fun m hm => h m (List.mem_cons_of_mem _ hm))

/-- Witness for C4 on `x, y = f()`, `for x, y in f()`, and `a = f()`. -/
theorem c4_resolve_target_walk_witness :
    assigned_names false false
        (ANode.assignN [.tupleE [.name "x", .name "y"]] :: []) =
      .ok (["x", "y"], ANode.assignN [.tupleE [.name "x", .name "y"]]) ∧
    assigned_names false true (ANode.forN (.tupleE [.name "x", .name "y"]) :: []) =
      .ok (["x", "y"], ANode.forN (.tupleE [.name "x", .name "y"])) ∧
    assigned_names false false (ANode.forN (.tupleE [.name "x", .name "y"]) :: []) =
      .error .noAssignmentFound ∧
    assigned_names true false (ANode.assignN [.name "a"] :: []) =
      .ok (["a"], ANode.assignN [.name "a"]) ∧
    assigned_names false false (ANode.assignN [.name "a"] :: []) =
      .error .noAssignmentFound := by
  refine ⟨c4_resolve_target_walk.1 [] false false "x" "y",
    c4_resolve_target_walk.2.1 [] false "x" "y", ?_,
    c4_resolve_target_walk.2.2.2.1 [] false "a", ?_⟩
  · rw [c4_resolve_target_walk.2.2.1 [] false (.tupleE [.name "x", .name "y"])]
    exact c4_resolve_target_walk.2.2.2.2.2 [] false false (by simp)
  · rw [c4_resolve_target_walk.2.2.2.2.1 [] false "a"]
    exact c4_resolve_target_walk.2.2.2.2.2 [] false false (by simp)

/-- C5.  Name extraction from binding targets: a plain name yields the
variable name, an attribute access yields the final attribute, a subscript
with a literal string key yields the key; tuple and list targets yield one
name per element left to right (so `obj.attr, d['key'] = f()` resolves to
`("attr", "key")`); nested unpacking and starred elements are rejected with
`TypeError('Cannot extract name from ...')`, and chained assignments are
rejected by `only(node.targets)` — no best-effort guess is made. -/
theorem c5_name_extraction :
    (∀ s : String, node_name (.name s) = .ok s) ∧
    (∀ (v : Expr) (a : String), node_name (.attributeE v a) = .ok a) ∧
    (∀ (v : Expr) (s : String), node_name (.subscript v (.strLit s)) = .ok s) ∧
    (∀ (obj d : Expr) (a ky : String),
      node_names (.tupleE [.attributeE obj a, .subscript d (.strLit ky)]) =
        .ok [a, ky]) ∧
    (∀ (es es2 : List Expr),
      node_names (.tupleE (.tupleE es :: es2)) = .error .cannotExtractName) ∧
    (∀ (v : Expr) (es : List Expr),
      node_names (.tupleE (.starred v :: es)) = .error .cannotExtractName) ∧
    (∀ (t1 t2 : Expr) (ts : List Expr) (rest : List ANode) (a l : Bool),
      assigned_names a l (ANode.assignN (t1 :: t2 :: ts) :: rest) =
        .error .expectedOne) ∧
    (∀ (obj d : Expr) (a ky : String) (rest : List ANode) (ao lo : Bool),
      assigned_names ao lo (ANode.assignN
          [.tupleE [.attributeE obj a, .subscript d (.strLit ky)]] :: rest) =
        .ok ([a, ky], ANode.assignN
          [.tupleE [.attributeE obj a, .subscript d (.strLit ky)]])) := by
  refine ⟨fun s => rfl, fun v a => rfl, fun v s => rfl, ?_, ?_, ?_, ?_, ?_⟩
  · intro obj d a ky
    simp [node_names, namesOfElts, node_name]
  · intro es es2
    simp [node_names, namesOfElts, node_name]
  · intro v es
    simp [node_names, namesOfElts, node_name]
  · intro t1 t2 ts rest a l
    simp [assigned_names]
  · intro obj d a ky rest ao lo
    simp [assigned_names, node_names, namesOfElts, node_name]

/-- Witness for C5 on `obj.attr, d['key'] = f()`, `(a, b), c = f()`,
`*a, b = f()` and `a = b = f()`. -/
theorem c5_name_extraction_witness :
    node_names (.tupleE [.attributeE (.name "obj") "attr",
        .subscript (.name "d") (.strLit "key")]) = .ok ["attr", "key"] ∧
    node_names (.tupleE [.tupleE [.name "a", .name "b"], .name "c"]) =
      .error .cannotExtractName ∧
    node_names (.tupleE [.starred (.name "a"), .name "b"]) =
      .error .cannotExtractName ∧
    assigned_names false false
        (ANode.assignN [.name "a", .name "b"] :: []) = .error .expectedOne ∧
    assigned_names false false (ANode.assignN
        [.tupleE [.attributeE (.name "obj") "attr",
          .subscript (.name "d") (.strLit "key")]] :: []) =
      .ok (["attr", "key"], ANode.assignN
        [.tupleE [.attributeE (.name "obj") "attr",
          .subscript (.name "d") (.strLit "key")]]) :=
  ⟨c5_name_extraction.2.2.2.1 (.name "obj") (.name "d") "attr" "key",
    c5_name_extraction.2.2.2.2.1 [.name "a", .name "b"] [.name "c"],
    c5_name_extraction.2.2.2.2.2.1 (.name "a") [.name "b"],
    c5_name_extraction.2.2.2.2.2.2.1 (.name "a") (.name "b") [] [] false false,
    c5_name_extraction.2.2.2.2.2.2.2 (.name "obj") (.name "d") "attr" "key" []
      false false⟩

theorem find?_append_cases {α : Type} (p : α → Bool) :
    ∀ A B : List α, List.find? p (A ++ B) =
      match List.find? p A with
      | some x => some x
      | none => List.find? p B := by
  intro A
  induction A with
  | nil => intro B; simp
  | cons a as ih =>
      intro B
      by_cases hp : p a
      · simp [List.find?_cons_of_pos _ hp]
      · have hp2 : ¬ p a = true := hp
        simp only [List.cons_append, List.find?_cons_of_neg _ hp2, ih B]

theorem fileInfoCall_hit (env : Env) (cache : FICache) (path : String) :
    List.find? (fun pr => pr.1 == path) (fileInfoCall env cache path).2.1 =
      some (path, (fileInfoCall env cache path).1) := by
  unfold fileInfoCall
  rcases hf : List.find? (fun pr => pr.1 == path) cache with _ | pr
  · simp only [hf]
    rw [find?_append_cases _ cache [(path, makeFileInfo env path)]]
    rw [hf]
    simp [List.find?]
  · simp only [hf]
    have hkey : pr.1 = path := by
      have := List.find?_some hf
      simpa using this
    rw [← hkey]

/-- C7.  Source-index cache idempotence: a second `file_info` call for the
same path returns the identical cached `FileInfo` object and does not run
`FileInfo.__init__` again (no re-read, no re-parse); consequently
re-resolving the same (file, line, offset) position returns the identical
result, computed against the identical cached syntax tree. -/
theorem c7_cache_idempotent (env : Env) (cache : FICache) (path : String) (fr : Fr) :
    (fileInfoCall env (fileInfoCall env cache path).2.1 path).1 =
      (fileInfoCall env cache path).1 ∧
    (fileInfoCall env (fileInfoCall env cache path).2.1 path).2.2 = false ∧
    (resolveAt env (resolveAt env cache path fr).2.1 path fr).1 =
      (resolveAt env cache path fr).1 := by
  have hhit := fileInfoCall_hit env cache path
  constructor
  · conv in fileInfoCall env (fileInfoCall env cache path).2.1 path =>
      rw [fileInfoCall.eq_def]
    rw [hhit]
  constructor
  · conv in fileInfoCall env (fileInfoCall env cache path).2.1 path =>
      rw [fileInfoCall.eq_def]
    rw [hhit]
  · have h2 : (fileInfoCall env (fileInfoCall env cache path).2.1 path).1 =
        (fileInfoCall env cache path).1 := by
      conv in fileInfoCall env (fileInfoCall env cache path).2.1 path =>
        rw [fileInfoCall.eq_def]
      rw [hhit]
    simp only [resolveAt, h2]

/-- C10.  `statement_containing_node` returns the node itself when it is
already a statement; in general it returns the nearest ancestor-or-self that
is a statement (the first statement in the node-then-ancestors chain); and
it is idempotent — applied to its own result (with any ancestor chain) it
returns the same statement. -/
theorem c10_statement_containing :
    (∀ (s : Stmt) (anc : List TreeNode),
      statement_containing_node (.stmtN s) anc = some s) ∧
    (∀ (n : TreeNode) (anc : List TreeNode),
      statement_containing_node n anc =
        (n :: anc).findSome?
          (fun m => match m with | .stmtN s => some s | _ => none)) ∧
    (∀ (n : TreeNode) (anc anc2 : List TreeNode) (s : Stmt),
      statement_containing_node n anc = some s →
      statement_containing_node (.stmtN s) anc2 = some s) := by
  refine ⟨fun s anc => by simp [statement_containing_node], ?_,
    fun n anc anc2 s _ => by simp [statement_containing_node]⟩
  intro n anc
  induction anc generalizing n with
  | nil =>
      cases n with
      | stmtN s => simp [statement_containing_node, List.findSome?_cons]
      | exprN e => simp [statement_containing_node, List.findSome?_cons]
      | kwN kw => simp [statement_containing_node, List.findSome?_cons]
  | cons p ps ih =>
      cases n with
      | stmtN s => simp [statement_containing_node, List.findSome?_cons]
      | exprN e =>
          rw [List.findSome?_cons]
          simp only [statement_containing_node]
          exact ih p
      | kwN kw =>
          rw [List.findSome?_cons]
          simp only [statement_containing_node]
          exact ih p

/-- Witness for C10: a name node inside an expression statement. -/
theorem c10_statement_containing_witness :
    statement_containing_node (.exprN (.name "x"))
        [.stmtN (Stmt.exprStmt 1 (.name "x"))] =
      some (Stmt.exprStmt 1 (.name "x")) ∧
    statement_containing_node (.stmtN (Stmt.exprStmt 1 (.name "x"))) [] =
      some (Stmt.exprStmt 1 (.name "x")) :=
  ⟨by
    rw [c10_statement_containing.2.1 (.exprN (.name "x"))
      [.stmtN (Stmt.exprStmt 1 (.name "x"))]]
    rfl,
    c10_statement_containing.2.2 (.exprN (.name "x"))
      [.stmtN (Stmt.exprStmt 1 (.name "x"))] [] (Stmt.exprStmt 1 (.name "x"))
      rfl⟩

end Sorcery
